import Mathlib

/-!
Verification of the KeySync Mini core pipeline
(normalization → comparison → provisioning → run tracking).

The Python sources are shallowly embedded: strings become `List Char`
(ASCII fragment: the CSV key material the pipeline processes), Python
`set`/`dict` values become `Finset`/association lists, SQLite tables become
lists of records inside an explicit `DBState`, and exceptions become
`Option`/`Except`.  Every definition is translated from the corresponding
function in `src/`, keeping its name where Lean allows it.
-/

namespace KeySync

/-- Keys are modelled as lists of characters (the ASCII fragment of Python
`str` that key data exercises). -/
abbrev Key := List Char

/-- Python `\s` / `str.strip` whitespace, ASCII fragment: space (32),
tab (9), newline (10), carriage return (13), vertical tab (11),
form feed (12).  Stated on code points to ease arithmetic reasoning. -/
def isSpaceChar (c : Char) : Bool :=
  c.toNat = 32 || c.toNat = 9 || c.toNat = 10 || c.toNat = 13 ||
    c.toNat = 11 || c.toNat = 12

/-- ASCII decimal digit `'0'..'9'` (Python regex `\d`, ASCII fragment). -/
def isDigitChar (c : Char) : Bool :=
  48 ≤ c.toNat && c.toNat ≤ 57

/-- Python regex word character `\w` (ASCII fragment):
`'A'..'Z'`, `'a'..'z'`, digits, `'_'` (95). -/
def isWordChar (c : Char) : Bool :=
  (65 ≤ c.toNat && c.toNat ≤ 90) || (97 ≤ c.toNat && c.toNat ≤ 122) ||
    isDigitChar c || c.toNat = 95

/-- `str.strip()`: drop whitespace from both ends. -/
def pstrip (l : Key) : Key :=
  ((l.dropWhile isSpaceChar).reverse.dropWhile isSpaceChar).reverse

/-- One pass of `re.sub(pat+, repl, s)` for a single-character-class pattern:
every maximal run of characters satisfying `p` is replaced by `repl`.
`inRun` records whether the previous character belonged to a run. -/
def subRunsGo (p : Char → Bool) (repl : Key) : Bool → Key → Key
  | _, [] => []
  | inRun, c :: cs =>
    if p c then
      (if inRun then [] else repl) ++ subRunsGo p repl true cs
    else
      c :: subRunsGo p repl false cs

/-- `re.sub` of a run pattern (`\s+`, `_+`, `-+`, `[_\s-]+`) by `repl`. -/
def subRuns (p : Char → Bool) (repl : Key) (l : Key) : Key :=
  subRunsGo p repl false l

/-- The collapse-delimiters block of `Normalizer.normalize`
(src/src/normalizer.py lines 58-73): the four patterns are tried in order
and only the first substitution that changes the key is kept (`break`). -/
def collapseStep (delim : Key) (key : Key) : Key :=
  let s1 := subRuns isSpaceChar delim key
  if s1 ≠ key then s1 else
  let s2 := subRuns (· = '_') delim key
  if s2 ≠ key then s2 else
  let s3 := subRuns (· = '-') delim key
  if s3 ≠ key then s3 else
  let s4 := subRuns (fun c => c = '_' || isSpaceChar c || c = '-') delim key
  if s4 ≠ key then s4 else key

/-- Characters kept by the strip-non-alphanumeric step:
`re.sub(f'[^A-Z0-9{re.escape(allowed)}]', '', key)` keeps upper-case
letters `'A'..'Z'` (65..90), digits `'0'..'9'` (48..57) and the allowed
delimiter characters. -/
def isAllowedChar (allowed : Key) (c : Char) : Bool :=
  (65 ≤ c.toNat && c.toNat ≤ 90) || (48 ≤ c.toNat && c.toNat ≤ 57) ||
    allowed.contains c

/-- `str.zfill(width)` on an all-digit run. -/
def zfill (width : Nat) (run : Key) : Key :=
  List.replicate (width - run.length) '0' ++ run

/-- `re.sub(r'\b(\d+)\b', lambda m: m.group(1).zfill(pad_length), key)`:
a maximal digit run is zero-padded exactly when the character before it (if
any) and after it (if any) are not word characters.  `prevWord` tells whether
the previous character was a word character; `pending` accumulates the digit
run currently being read (it always started at a `\b` boundary). -/
def padAux (padLen : Nat) : Bool → Key → Key → Key
  | _, pending, [] => if pending.isEmpty then [] else zfill padLen pending
  | prevWord, pending, c :: cs =>
    if pending.isEmpty then
      if isDigitChar c && !prevWord then
        padAux padLen prevWord [c] cs
      else
        c :: padAux padLen (isWordChar c) [] cs
    else
      if isDigitChar c then
        padAux padLen prevWord (pending ++ [c]) cs
      else
        (if isWordChar c then pending else zfill padLen pending)
          ++ c :: padAux padLen (isWordChar c) [] cs

/-- The left-pad-numbers substitution. -/
def padNumbers (padLen : Nat) (l : Key) : Key :=
  padAux padLen false [] l

/-- Resolved state of a constructed `Normalizer`
(src/src/normalizer.py `__init__`): the effective configuration values,
whether no configuration object was supplied at all, and whether
`left_pad_numbers` was an explicitly supplied key. -/
structure Normalizer where
  uppercase : Bool
  trimWhitespace : Bool
  stripNonAlnum : Bool
  /-- `collapse_delims`; `[]` models the falsy values (`None`, `''`). -/
  collapseDelims : Key
  leftPadNumbers : Bool
  padLength : Nat
  usingDefaultConfig : Bool
  explicitLeftPad : Bool
  deriving Repr, DecidableEq

/-- A configuration dict passed to the constructor: each field is `some`
exactly when the corresponding key is present in the dict.
(`left_pad_numbers` set to a falsy value is `some false`.) -/
structure NormConfig where
  uppercase : Option Bool := none
  trim_whitespace : Option Bool := none
  strip_non_alnum : Option Bool := none
  collapse_delims : Option Key := none
  left_pad_numbers : Option Bool := none
  pad_length : Option Nat := none
  deriving Repr, DecidableEq

/-- `Normalizer.__init__`: defaults overlaid with the supplied configuration;
`none` models calling `Normalizer()` with no configuration object. -/
def mkNormalizer (config : Option NormConfig) : Normalizer :=
  let cfg := config.getD {}
  { uppercase := cfg.uppercase.getD true
    trimWhitespace := cfg.trim_whitespace.getD true
    stripNonAlnum := cfg.strip_non_alnum.getD true
    collapseDelims := cfg.collapse_delims.getD ['-']
    leftPadNumbers := cfg.left_pad_numbers.getD true
    padLength := cfg.pad_length.getD 6
    usingDefaultConfig := config.isNone
    explicitLeftPad := (config.getD {}).left_pad_numbers.isSome }

/-- The `pad_numbers_enabled` computation
(src/src/normalizer.py lines 84-91): under a pure-default normalizer the
resolved `left_pad_numbers` value decides; otherwise the step runs only if
the key was explicitly supplied (and truthy). -/
def padEnabled (n : Normalizer) : Bool :=
  if n.usingDefaultConfig then n.leftPadNumbers
  else if n.explicitLeftPad then n.leftPadNumbers
  else false

/-- `Normalizer.normalize` (src/src/normalizer.py lines 37-115), minus the
statistics bookkeeping, which does not affect the returned key. -/
def normalize (n : Normalizer) (key : Key) : Key :=
  if key = [] then []
  else
    let k1 := if n.trimWhitespace then pstrip key else key
    let k2 := if n.uppercase then k1.map Char.toUpper else k1
    let k3 := if n.collapseDelims ≠ [] then collapseStep n.collapseDelims k2 else k2
    let k4 :=
      if n.stripNonAlnum then
        let allowed := if n.collapseDelims ≠ [] then n.collapseDelims else ['-']
        k4Filter allowed k3
      else k3
    if padEnabled n then padNumbers n.padLength k4 else k4
where
  /-- the strip-non-alphanumeric substitution deletes every disallowed char. -/
  k4Filter (allowed : Key) (l : Key) : Key := l.filter (isAllowedChar allowed)

/-- `normalize` on Lean strings, for readable statements. -/
def normalizeStr (n : Normalizer) (s : String) : String :=
  ⟨normalize n s.toList⟩

/-- The pure-defaults normalizer `Normalizer()`. -/
def defaultNormalizer : Normalizer := mkNormalizer none

/-! ### The five normalization stages as standalone transforms

`normalize` above is the direct translation of the body of
`Normalizer.normalize`; the following definitions name its five steps
individually so that the claimed trim → uppercase → collapse → strip → pad
ordering can be stated as a theorem about `normalize`. -/

/-- Stage 1: trim surrounding whitespace. -/
def trimStage (n : Normalizer) (key : Key) : Key :=
  if n.trimWhitespace then pstrip key else key

/-- Stage 2: upper-case every character. -/
def upperStage (n : Normalizer) (key : Key) : Key :=
  if n.uppercase then key.map Char.toUpper else key

/-- Stage 3: collapse delimiter runs (first changing pattern only). -/
def collapseStage (n : Normalizer) (key : Key) : Key :=
  if n.collapseDelims ≠ [] then collapseStep n.collapseDelims key else key

/-- Stage 4: strip characters that are neither `A-Z`, `0-9` nor allowed
delimiters. -/
def stripStage (n : Normalizer) (key : Key) : Key :=
  if n.stripNonAlnum then
    key.filter (isAllowedChar (if n.collapseDelims ≠ [] then n.collapseDelims else ['-']))
  else key

/-- Stage 5: left-pad boundary-delimited digit runs. -/
def padStage (n : Normalizer) (key : Key) : Key :=
  if padEnabled n then padNumbers n.padLength key else key

/-- The collapse behaviour worded by claim C7: every maximal run of
whitespace, underscores, hyphens, or any mixture of them, is replaced by a
single occurrence of the configured delimiter.  (The source instead stops
after the first of its four patterns that changes the key.) -/
def claimedCollapseStep (delim : Key) (key : Key) : Key :=
  subRuns (fun c => isSpaceChar c || c = '_' || c = '-') delim key

/-- `normalize` as claim C7 describes it: identical to the source pipeline
except that the collapse stage is `claimedCollapseStep`. -/
def claimedNormalize (n : Normalizer) (key : Key) : Key :=
  if key = [] then []
  else
    padStage n (stripStage n
      ((if n.collapseDelims ≠ [] then claimedCollapseStep n.collapseDelims else id)
        (upperStage n (trimStage n key))))

/-- `claimedNormalize` on Lean strings. -/
def claimedNormalizeStr (n : Normalizer) (s : String) : String :=
  ⟨claimedNormalize n s.toList⟩

/-! ### Character-level facts about `Char.toUpper` (ASCII) -/

/-- `Char.ofNat` of a valid code point keeps its numeric value. -/
theorem toNat_ofNat_valid {n : Nat} (h : n < 0xd800) : (Char.ofNat n).toNat = n := by
  simp only [Char.ofNat, Char.ofNatAux, Char.toNat]
  rw [dif_pos (Or.inl (by omega))]
  simp [UInt32.toNat, BitVec.toNat_ofNatLt]

/-- Code point of `Char.toUpper`: lower-case letters move down by 32,
everything else is unchanged. -/
theorem toNat_toUpper (c : Char) :
    (Char.toUpper c).toNat =
      if 97 ≤ c.toNat ∧ c.toNat ≤ 122 then c.toNat - 32 else c.toNat := by
  simp only [Char.toUpper, ge_iff_le]
  split
  · next h => exact toNat_ofNat_valid (by omega)
  · next h => rfl

/-- `Char.toUpper` is the identity away from lower-case letters. -/
theorem toUpper_eq_self (c : Char) (h : ¬(97 ≤ c.toNat ∧ c.toNat ≤ 122)) :
    Char.toUpper c = c := by
  simp only [Char.toUpper, ge_iff_le]
  rw [if_neg h]

/-- `Char.toUpper` never produces a lower-case letter. -/
theorem toUpper_not_lower (c : Char) :
    ¬(97 ≤ (Char.toUpper c).toNat ∧ (Char.toUpper c).toNat ≤ 122) := by
  rw [toNat_toUpper]
  split <;> omega

/-- `Char.toUpper` maps whitespace to itself and never creates whitespace. -/
theorem isSpaceChar_toUpper (c : Char) :
    isSpaceChar (Char.toUpper c) = isSpaceChar c := by
  rw [Bool.eq_iff_iff]
  simp only [isSpaceChar, toNat_toUpper, Bool.or_eq_true, decide_eq_true_eq]
  split
  · next h => constructor <;> intro hx <;> omega
  · next h => exact Iff.rfl

/-! ## Claim C5 — numeric-padding enablement asymmetry -/

/-- Claim C5: the left-pad-numbers step is active when the `Normalizer` was
constructed with no configuration at all, while under a supplied
configuration object it is active exactly when the caller explicitly set
`left_pad_numbers` (to a truthy value); and under pure defaults,
`normalize("  cust-123  ")` returns `"CUST-000123"`. -/
theorem c5_padding_enablement_asymmetry :
    padEnabled (mkNormalizer none) = true
      ∧ (∀ cfg : NormConfig,
          padEnabled (mkNormalizer (some cfg)) = true ↔
            cfg.left_pad_numbers = some true)
      ∧ normalizeStr defaultNormalizer "  cust-123  " = "CUST-000123" := by
  refine ⟨rfl, fun cfg => ?_, by decide⟩
  obtain ⟨u, t, s, cd, lp, pl⟩ := cfg
  cases lp with
  | none => simp [mkNormalizer, padEnabled]
  | some b => cases b <;> simp [mkNormalizer, padEnabled]

/-! ## Claim C10 — the empty configuration dict is not the default case -/

/-- Claim C10: `Normalizer({})` is treated as partially configured, not as
the pure-default case: its left-pad step is disabled, so `"cust-1"`
normalizes differently under `Normalizer({})` and `Normalizer(None)` even
though the empty dict overrides nothing. -/
theorem c10_empty_config_disables_padding :
    padEnabled (mkNormalizer (some {})) = false
      ∧ normalizeStr (mkNormalizer (some {})) "cust-1" = "CUST-1"
      ∧ normalizeStr (mkNormalizer none) "cust-1" = "CUST-000001"
      ∧ normalizeStr (mkNormalizer (some {})) "cust-1"
          ≠ normalizeStr (mkNormalizer none) "cust-1" := by
  refine ⟨rfl, by decide, by decide, by decide⟩

/-! ## Claim C4 — idempotence of normalization -/

/-- Counterexample to claim C4 as stated: under the pure-default
configuration (trim, uppercase, collapse on `-`, strip, pad — one of the
quantified configurations), normalization is not idempotent:
`"a- -b"` normalizes to `"A---B"` (the whitespace pattern fires first and
the hyphen runs are left alone), which re-normalizes to `"A-B"`. -/
theorem c4_default_config_not_idempotent :
    normalizeStr defaultNormalizer "a- -b" = "A---B"
      ∧ normalizeStr defaultNormalizer "A---B" = "A-B"
      ∧ normalizeStr defaultNormalizer (normalizeStr defaultNormalizer "a- -b")
          ≠ normalizeStr defaultNormalizer "a- -b" := by
  refine ⟨by decide, by decide, by decide⟩

/-! ## Claim C7 — stage order and collapse behaviour -/

/-- Counterexample to claim C7 as stated: the collapse step does not replace
every maximal run of whitespace, underscores and hyphens with the delimiter;
it applies only the first of its four patterns that changes the key.  On
`"a_b c"` the claimed behaviour gives `"A-B-C"`, the source gives `"AB-C"`
(the whitespace substitution fires, the underscore survives collapse and is
then deleted by the strip step). -/
theorem c7_collapse_counterexample :
    normalizeStr defaultNormalizer "a_b c" = "AB-C"
      ∧ claimedNormalizeStr defaultNormalizer "a_b c" = "A-B-C"
      ∧ normalizeStr defaultNormalizer "a_b c"
          ≠ claimedNormalizeStr defaultNormalizer "a_b c" := by
  refine ⟨by decide, by decide, by decide⟩

/-! ### Helper lemmas for the amended idempotence claim (C4) -/

/-- A list whose first and last characters (if any) are not whitespace. -/
def NoSpaceEnds (l : Key) : Prop :=
  (∀ c, l.head? = some c → isSpaceChar c = false)
    ∧ (∀ c, l.getLast? = some c → isSpaceChar c = false)

theorem head?_dropWhile_false (p : Char → Bool) (l : Key) {c : Char}
    (h : (l.dropWhile p).head? = some c) : p c = false := by
  have hh := List.head?_dropWhile_not p l
  rw [h] at hh
  exact hh

theorem dropWhile_eq_self_of_head (p : Char → Bool) (l : Key)
    (h : ∀ c, l.head? = some c → p c = false) : l.dropWhile p = l := by
  cases l with
  | nil => rfl
  | cons c cs =>
    rw [List.dropWhile_cons, if_neg]
    simp [h c rfl]

theorem pstrip_eq_self {l : Key} (h : NoSpaceEnds l) : pstrip l = l := by
  unfold pstrip
  rw [dropWhile_eq_self_of_head _ _ h.1]
  rw [dropWhile_eq_self_of_head _ _ (fun c hc => h.2 c (by rwa [List.head?_reverse] at hc))]
  exact l.reverse_reverse

theorem getLast?_suffix {s l : Key} (h : s <:+ l) (hs : s ≠ []) :
    s.getLast? = l.getLast? := by
  obtain ⟨t, rfl⟩ := h
  rw [List.getLast?_append_of_ne_nil _ hs]

theorem pstrip_noSpaceEnds (l : Key) : NoSpaceEnds (pstrip l) := by
  unfold pstrip
  set A := l.dropWhile isSpaceChar with hA
  set B := A.reverse.dropWhile isSpaceChar with hB
  by_cases hBe : B = []
  · rw [hBe]
    exact ⟨fun c hc => by simp at hc, fun c hc => by simp at hc⟩
  constructor
  · intro c hc
    rw [List.head?_reverse] at hc
    have h1 : B.getLast? = A.reverse.getLast? :=
      getLast?_suffix (List.dropWhile_suffix _) hBe
    rw [h1, List.getLast?_reverse] at hc
    exact head?_dropWhile_false _ _ hc
  · intro c hc
    rw [List.getLast?_reverse] at hc
    exact head?_dropWhile_false _ _ hc

theorem pstrip_eq_self_of_all {l : Key}
    (h : ∀ c ∈ l, isSpaceChar c = false) : pstrip l = l := by
  refine pstrip_eq_self ⟨fun c hc => h c ?_, fun c hc => h c ?_⟩
  · exact List.mem_of_mem_head? hc
  · exact List.mem_of_getLast?_eq_some hc

theorem map_eq_self_of_forall {l : Key} {f : Char → Char}
    (h : ∀ c ∈ l, f c = c) : l.map f = l := by
  induction l with
  | nil => rfl
  | cons c cs ih =>
    simp only [List.map_cons, h c (List.mem_cons_self c cs),
      ih (fun x hx => h x (List.mem_cons_of_mem _ hx))]

/-! ### Facts about the left-pad substitution -/

theorem zfill_length (width : Nat) (r : Key) :
    (zfill width r).length = max width r.length := by
  simp [zfill]
  omega

theorem zfill_idem (width : Nat) (r : Key) :
    zfill width (zfill width r) = zfill width r := by
  have h : width - (zfill width r).length = 0 := by
    rw [zfill_length]; omega
  rw [zfill, h]
  rfl

theorem zfill_ne_nil (width : Nat) {r : Key} (h : r ≠ []) :
    zfill width r ≠ [] := by
  intro he
  exact h (List.append_eq_nil.mp he).2

theorem mem_zfill {width : Nat} {r : Key} {c : Char} (h : c ∈ zfill width r) :
    c = '0' ∨ c ∈ r := by
  rcases List.mem_append.mp h with h0 | hr
  · exact Or.inl (List.eq_of_mem_replicate h0)
  · exact Or.inr hr

theorem zfill_digits {width : Nat} {r : Key}
    (h : ∀ c ∈ r, isDigitChar c = true) :
    ∀ c ∈ zfill width r, isDigitChar c = true := by
  intro c hc
  rcases mem_zfill hc with rfl | hr
  · decide
  · exact h c hr

theorem zfill_head? (width : Nat) (r : Key) :
    (zfill width r).head? = if width - r.length = 0 then r.head? else some '0' := by
  rw [zfill]
  cases hn : width - r.length with
  | zero => simp
  | succ k => simp [List.replicate_succ]

theorem zfill_getLast? (width : Nat) {r : Key} (h : r ≠ []) :
    (zfill width r).getLast? = r.getLast? := by
  rw [zfill, List.getLast?_append_of_ne_nil _ h]

/-- Every character emitted by `padAux` is `'0'`, from the pending run, or
from the remaining input. -/
theorem padAux_mem {L : Nat} :
    ∀ {l : Key} {pw : Bool} {pending : Key} {c : Char},
      c ∈ padAux L pw pending l → c = '0' ∨ c ∈ pending ∨ c ∈ l := by
  intro l
  induction l with
  | nil =>
    intro pw pending c h
    unfold padAux at h
    split at h
    · simp at h
    · rcases mem_zfill h with h0 | hp
      · exact Or.inl h0
      · exact Or.inr (Or.inl hp)
  | cons a cs ih =>
    intro pw pending c h
    unfold padAux at h
    split at h
    · split at h
      · rcases ih h with h0 | hp | hc
        · exact Or.inl h0
        · rcases List.mem_singleton.mp hp with rfl
          exact Or.inr (Or.inr (List.mem_cons_self _ _))
        · exact Or.inr (Or.inr (List.mem_cons_of_mem _ hc))
      · rcases List.mem_cons.mp h with rfl | hc
        · exact Or.inr (Or.inr (List.mem_cons_self _ _))
        · rcases ih hc with h0 | hp | hc'
          · exact Or.inl h0
          · simp at hp
          · exact Or.inr (Or.inr (List.mem_cons_of_mem _ hc'))
    · split at h
      · rcases ih h with h0 | hp | hc
        · exact Or.inl h0
        · rcases List.mem_append.mp hp with hp' | hp'
          · exact Or.inr (Or.inl hp')
          · rcases List.mem_singleton.mp hp' with rfl
            exact Or.inr (Or.inr (List.mem_cons_self _ _))
        · exact Or.inr (Or.inr (List.mem_cons_of_mem _ hc))
      · rcases List.mem_append.mp h with hp | hc
        · have hz : c = '0' ∨ c ∈ pending := by
            split at hp
            · exact Or.inr hp
            · exact mem_zfill hp
          rcases hz with h0 | hp'
          · exact Or.inl h0
          · exact Or.inr (Or.inl hp')
        · rcases List.mem_cons.mp hc with rfl | hc'
          · exact Or.inr (Or.inr (List.mem_cons_self _ _))
          · rcases ih hc' with h0 | hp | hc''
            · exact Or.inl h0
            · simp at hp
            · exact Or.inr (Or.inr (List.mem_cons_of_mem _ hc''))

/-- `padAux` with a nonempty pending run never returns the empty list. -/
theorem padAux_ne_nil_of_pending {L : Nat} :
    ∀ {l : Key} {pw : Bool} {pending : Key}, pending ≠ [] →
      padAux L pw pending l ≠ [] := by
  intro l
  induction l with
  | nil =>
    intro pw pending hp
    unfold padAux
    rw [if_neg (by simpa using hp)]
    exact zfill_ne_nil _ hp
  | cons a cs ih =>
    intro pw pending hp
    unfold padAux
    rw [if_neg (by simpa using hp)]
    split
    · exact ih (by simp)
    · split
      · intro he
        rcases List.append_eq_nil.mp he with ⟨-, h2⟩
        simp at h2
      · intro he
        rcases List.append_eq_nil.mp he with ⟨h1, -⟩
        exact zfill_ne_nil _ hp h1

/-- `padAux` starting with an empty pending run returns `[]` only on `[]`. -/
theorem padAux_nil_iff {L : Nat} {l : Key} {pw : Bool} :
    padAux L pw [] l = [] ↔ l = [] := by
  cases l with
  | nil => simp [padAux]
  | cons a cs =>
    constructor
    · intro h
      unfold padAux at h
      rw [if_pos (show ([] : Key).isEmpty = true from rfl)] at h
      split at h
      · exact absurd h (padAux_ne_nil_of_pending (by simp))
      · simp at h
    · intro h
      simp at h

/-- The head of a `padAux` output with nonempty pending run: a padding zero
or the head of the pending run. -/
theorem padAux_pending_head {L : Nat} :
    ∀ {l : Key} {pw : Bool} {pending : Key}, pending ≠ [] →
      (padAux L pw pending l).head? = some '0'
        ∨ (padAux L pw pending l).head? = pending.head? := by
  intro l
  induction l with
  | nil =>
    intro pw pending hp
    unfold padAux
    rw [if_neg (by simpa using hp), zfill_head?]
    split
    · exact Or.inr rfl
    · exact Or.inl rfl
  | cons a cs ih =>
    intro pw pending hp
    unfold padAux
    rw [if_neg (by simpa using hp)]
    split
    · rcases @ih pw (pending ++ [a]) (by simp) with h | h
      · exact Or.inl h
      · right
        rw [h, List.head?_append_of_ne_nil _ hp]
    · split
      · right
        rw [List.head?_append_of_ne_nil _ hp]
      · rw [List.head?_append_of_ne_nil _ (zfill_ne_nil L hp), zfill_head?]
        split
        · exact Or.inr rfl
        · exact Or.inl rfl

/-- Digits are not whitespace. -/
theorem digit_not_space {c : Char} (h : isDigitChar c = true) :
    isSpaceChar c = false := by
  simp only [isDigitChar, Bool.and_eq_true, decide_eq_true_eq] at h
  simp only [isSpaceChar, Bool.or_eq_false_iff, decide_eq_false_iff_not]
  omega

theorem getLast?_cons_ne {a : Char} {cs : Key} (h : cs ≠ []) :
    (a :: cs).getLast? = cs.getLast? := by
  cases cs with
  | nil => exact absurd rfl h
  | cons b bs => exact List.getLast?_cons_cons

/-- The last character of a `padAux` output is non-whitespace or the last
character of the remaining input. -/
theorem padAux_getLast {L : Nat} :
    ∀ {l : Key} {pw : Bool} {pending : Key},
      (∀ c ∈ pending, isDigitChar c = true) →
      ∀ c, (padAux L pw pending l).getLast? = some c →
        isSpaceChar c = false ∨ l.getLast? = some c := by
  intro l
  induction l with
  | nil =>
    intro pw pending hpd c hc
    unfold padAux at hc
    split at hc
    · simp at hc
    · next hpe =>
      rw [zfill_getLast? _ (by simpa using hpe)] at hc
      exact Or.inl (digit_not_space (hpd c (List.mem_of_getLast?_eq_some hc)))
  | cons a cs ih =>
    intro pw pending hpd c hc
    unfold padAux at hc
    split at hc
    · split at hc
      · next ha =>
        have hd : ∀ x ∈ [a], isDigitChar x = true := by
          intro x hx
          rcases List.mem_singleton.mp hx with rfl
          exact (Bool.and_eq_true_iff.mp ha).1
        rcases ih hd c hc with h | h
        · exact Or.inl h
        · right
          have hne : cs ≠ [] := by
            intro he
            rw [he] at h
            simp at h
          rw [getLast?_cons_ne hne]
          exact h
      · by_cases hcs : padAux L (isWordChar a) [] cs = []
        · have hnil : cs = [] := padAux_nil_iff.mp hcs
          subst hnil
          rw [hcs] at hc
          exact Or.inr hc
        · rw [getLast?_cons_ne hcs] at hc
          rcases ih (by simp) c hc with h' | h'
          · exact Or.inl h'
          · right
            have hne : cs ≠ [] := by
              intro he
              rw [he] at h'
              simp at h'
            rw [getLast?_cons_ne hne]
            exact h'
    · split at hc
      · next ha =>
        have hd : ∀ x ∈ pending ++ [a], isDigitChar x = true := by
          intro x hx
          rcases List.mem_append.mp hx with hx' | hx'
          · exact hpd x hx'
          · rcases List.mem_singleton.mp hx' with rfl
            exact ha
        rcases ih hd c hc with h | h
        · exact Or.inl h
        · right
          have hne : cs ≠ [] := by
            intro he
            rw [he] at h
            simp at h
          rw [getLast?_cons_ne hne]
          exact h
      · rw [@List.getLast?_append_of_ne_nil _ _ (a :: padAux L (isWordChar a) [] cs) (by simp)] at hc
        by_cases hcs : padAux L (isWordChar a) [] cs = []
        · have hnil : cs = [] := padAux_nil_iff.mp hcs
          subst hnil
          rw [hcs] at hc
          exact Or.inr hc
        · rw [getLast?_cons_ne hcs] at hc
          rcases ih (by simp) c hc with h' | h'
          · exact Or.inl h'
          · right
            have hne : cs ≠ [] := by
              intro he
              rw [he] at h'
              simp at h'
            rw [getLast?_cons_ne hne]
            exact h'

/-- Reduction of `padAux` on the empty input. -/
theorem padAux_nil_eq (L : Nat) (pw : Bool) (pending : Key) :
    padAux L pw pending [] = if pending.isEmpty then [] else zfill L pending := rfl

/-- Reduction of `padAux` on a cons input. -/
theorem padAux_cons_eq (L : Nat) (pw : Bool) (pending : Key) (c : Char) (cs : Key) :
    padAux L pw pending (c :: cs) =
      if pending.isEmpty then
        if isDigitChar c && !pw then padAux L pw [c] cs
        else c :: padAux L (isWordChar c) [] cs
      else
        if isDigitChar c then padAux L pw (pending ++ [c]) cs
        else (if isWordChar c then pending else zfill L pending)
          ++ c :: padAux L (isWordChar c) [] cs := rfl

/-- `padAux` on a pending run followed by digits only: the whole run is
zero-filled. -/
theorem padAux_run_nil {L : Nat} :
    ∀ (ds : Key), (∀ c ∈ ds, isDigitChar c = true) →
      ∀ (pending : Key), pending ≠ [] → ∀ pw,
        padAux L pw pending ds = zfill L (pending ++ ds) := by
  intro ds
  induction ds with
  | nil =>
    intro _ pending hp pw
    rw [padAux_nil_eq, if_neg (by simpa using hp)]
    simp
  | cons d ds ih =>
    intro hds pending hp pw
    rw [padAux_cons_eq, if_neg (by simpa using hp),
      if_pos (hds d (List.mem_cons_self _ _)),
      ih (fun x hx => hds x (List.mem_cons_of_mem _ hx)) _ (by simp) pw]
    simp

/-- `padAux` on a pending run, more digits, then a non-digit: the run is
flushed (padded exactly when the non-digit is not a word character) and the
scan restarts after the non-digit. -/
theorem padAux_run_cons {L : Nat} :
    ∀ (ds : Key), (∀ c ∈ ds, isDigitChar c = true) →
      ∀ (c : Char), isDigitChar c = false →
      ∀ (cs pending : Key), pending ≠ [] → ∀ pw,
        padAux L pw pending (ds ++ c :: cs) =
          (if isWordChar c then pending ++ ds else zfill L (pending ++ ds))
            ++ c :: padAux L (isWordChar c) [] cs := by
  intro ds
  induction ds with
  | nil =>
    intro _ c hc cs pending hp pw
    simp only [List.nil_append, List.append_nil]
    rw [padAux_cons_eq, if_neg (by simpa using hp), if_neg (by simp [hc])]
  | cons d ds ih =>
    intro hds c hc cs pending hp pw
    simp only [List.cons_append]
    rw [padAux_cons_eq, if_neg (by simpa using hp),
      if_pos (hds d (List.mem_cons_self _ _)),
      ih (fun x hx => hds x (List.mem_cons_of_mem _ hx)) c hc cs _ (by simp) pw]
    simp

/-- Core idempotence of the left-pad scan. -/
theorem padAux_idem {L : Nat} :
    ∀ (N : Nat) (l : Key), l.length ≤ N → ∀ pw,
      padAux L pw [] (padAux L pw [] l) = padAux L pw [] l := by
  intro N
  induction N with
  | zero =>
    intro l hl pw
    rw [List.length_eq_zero.mp (Nat.le_zero.mp hl)]
    rfl
  | succ N ih =>
    intro l hl pw
    cases l with
    | nil => rfl
    | cons c cs =>
      by_cases h : (isDigitChar c && !pw) = true
      · -- a boundary digit run starts at `c`
        have hpw : pw = false := by
          rcases Bool.and_eq_true_iff.mp h with ⟨-, h2⟩
          simpa using h2
        have hcd : isDigitChar c = true := (Bool.and_eq_true_iff.mp h).1
        have hstep : padAux L pw [] (c :: cs) = padAux L pw [c] cs := by
          rw [padAux_cons_eq, if_pos (show ([] : Key).isEmpty = true from rfl), if_pos h]
        set ds := cs.takeWhile isDigitChar with hds_def
        set rest := cs.dropWhile isDigitChar with hrest_def
        have hsplit : ds ++ rest = cs :=
          @List.takeWhile_append_dropWhile _ isDigitChar cs
        have hds : ∀ x ∈ ds, isDigitChar x = true :=
          fun x hx => List.mem_takeWhile_imp hx
        have hlen : cs.length ≤ N := by simpa using hl
        cases hrest : rest with
        | nil =>
          have hcs : ds = cs := by rw [← hsplit, hrest, List.append_nil]
          have hO : padAux L pw [] (c :: cs) = zfill L (c :: ds) := by
            rw [hstep, ← hcs, padAux_run_nil ds hds [c] (by simp) pw]
            rfl
          have hdig : ∀ x ∈ (c :: ds : Key), isDigitChar x = true := by
            intro x hx
            rcases List.mem_cons.mp hx with rfl | hx'
            · exact hcd
            · exact hds x hx'
          have hne : zfill L (c :: ds) ≠ [] := zfill_ne_nil _ (by simp)
          obtain ⟨e, es, heq⟩ := List.exists_cons_of_ne_nil hne
          have hez : ∀ x ∈ (e :: es : Key), isDigitChar x = true := by
            rw [← heq]
            exact zfill_digits hdig
          rw [hO, heq]
          have hstep2 : padAux L pw [] (e :: es) = padAux L pw [e] es := by
            rw [padAux_cons_eq, if_pos (show ([] : Key).isEmpty = true from rfl),
              if_pos (by simp [hez e (List.mem_cons_self _ _), hpw])]
          rw [hstep2, padAux_run_nil es
            (fun x hx => hez x (List.mem_cons_of_mem _ hx)) [e] (by simp) pw]
          have h1 : ([e] ++ es : Key) = e :: es := rfl
          rw [h1, ← heq, zfill_idem]
        | cons c' cs' =>
          have hc' : isDigitChar c' = false := by
            refine head?_dropWhile_false isDigitChar cs ?_
            rw [← hrest_def, hrest]
            rfl
          have hcs : ds ++ c' :: cs' = cs := by rw [← hsplit, hrest]
          have hO : padAux L pw [] (c :: cs) =
              (if isWordChar c' then [c] ++ ds else zfill L ([c] ++ ds))
                ++ c' :: padAux L (isWordChar c') [] cs' := by
            rw [hstep, ← hcs, padAux_run_cons ds hds c' hc' cs' [c] (by simp) pw]
          set R := if isWordChar c' then [c] ++ ds else zfill L ([c] ++ ds) with hR
          have hRdig : ∀ x ∈ R, isDigitChar x = true := by
            rw [hR]
            have hcds : ∀ x ∈ ([c] ++ ds : Key), isDigitChar x = true := by
              intro x hx
              rcases List.mem_append.mp hx with hx' | hx'
              · rcases List.mem_singleton.mp hx' with rfl
                exact hcd
              · exact hds x hx'
            split
            · exact hcds
            · exact zfill_digits hcds
          have hRne : R ≠ [] := by
            rw [hR]
            split
            · simp
            · exact zfill_ne_nil _ (by simp)
          obtain ⟨e, es, heq⟩ := List.exists_cons_of_ne_nil hRne
          have hez : ∀ x ∈ (e :: es : Key), isDigitChar x = true := heq ▸ hRdig
          have hY : padAux L (isWordChar c') []
              (padAux L (isWordChar c') [] cs') = padAux L (isWordChar c') [] cs' := by
            refine ih cs' ?_ (isWordChar c')
            have hL : cs.length = ds.length + (cs'.length + 1) := by
              rw [← hcs]
              simp
            omega
          rw [hO, heq]
          set Y := padAux L (isWordChar c') [] cs' with hYdef
          have hstep2 : padAux L pw [] ((e :: es) ++ c' :: Y) =
              padAux L pw [e] (es ++ c' :: Y) := by
            rw [show ((e :: es) ++ c' :: Y : Key) = e :: (es ++ c' :: Y) from rfl,
              padAux_cons_eq, if_pos (show ([] : Key).isEmpty = true from rfl),
              if_pos (by simp [hez e (List.mem_cons_self _ _), hpw])]
          calc padAux L pw [] ((e :: es) ++ c' :: Y)
              = padAux L pw [e] (es ++ c' :: Y) := hstep2
            _ = (if isWordChar c' then [e] ++ es else zfill L ([e] ++ es))
                  ++ c' :: padAux L (isWordChar c') [] Y :=
                padAux_run_cons es (fun x hx => hez x (List.mem_cons_of_mem _ hx))
                  c' hc' Y [e] (by simp) pw
            _ = (if isWordChar c' then R else zfill L R) ++ c' :: Y := by
                rw [show ([e] ++ es : Key) = e :: es from rfl, ← heq, hYdef, hY]
            _ = R ++ c' :: Y := by
                congr 1
                split
                · rfl
                · next hw =>
                  rw [hR, if_neg hw]
                  exact zfill_idem L _
            _ = (e :: es) ++ c' :: Y := by rw [heq]
      · -- no boundary run starts here: the head is copied verbatim
        have hstep : padAux L pw [] (c :: cs) = c :: padAux L (isWordChar c) [] cs := by
          rw [padAux_cons_eq, if_pos (show ([] : Key).isEmpty = true from rfl), if_neg h]
        rw [hstep]
        have hstep2 : padAux L pw [] (c :: padAux L (isWordChar c) [] cs) =
            c :: padAux L (isWordChar c) [] (padAux L (isWordChar c) [] cs) := by
          rw [padAux_cons_eq, if_pos (show ([] : Key).isEmpty = true from rfl), if_neg h]
        rw [hstep2, ih cs (by simpa using hl) (isWordChar c)]

/-- The left-pad substitution is idempotent. -/
theorem padNumbers_idem (L : Nat) (l : Key) :
    padNumbers L (padNumbers L l) = padNumbers L l :=
  padAux_idem l.length l (Nat.le_refl _) false

/-- `normalize` is the five stages composed in the claimed order. -/
theorem normalize_eq_stages (n : Normalizer) {key : Key} (h : key ≠ []) :
    normalize n key =
      padStage n (stripStage n (collapseStage n (upperStage n (trimStage n key)))) := by
  unfold normalize normalize.k4Filter trimStage upperStage collapseStage stripStage padStage
  rw [if_neg h]

/-- Characters surviving the `['-']`-allowed strip are not whitespace. -/
theorem allowed_dash_not_space {c : Char} (h : isAllowedChar ['-'] c = true) :
    isSpaceChar c = false := by
  simp only [isAllowedChar, List.contains_cons, List.contains_nil, Bool.or_false,
    Bool.or_eq_true, Bool.and_eq_true, decide_eq_true_eq, beq_iff_eq] at h
  rcases h with (h | h) | h
  · simp only [isSpaceChar, Bool.or_eq_false_iff, decide_eq_false_iff_not]
    omega
  · simp only [isSpaceChar, Bool.or_eq_false_iff, decide_eq_false_iff_not]
    omega
  · subst h
    decide

/-- Characters surviving the `['-']`-allowed strip are not lower-case. -/
theorem allowed_dash_toUpper {c : Char} (h : isAllowedChar ['-'] c = true) :
    Char.toUpper c = c := by
  simp only [isAllowedChar, List.contains_cons, List.contains_nil, Bool.or_false,
    Bool.or_eq_true, Bool.and_eq_true, decide_eq_true_eq, beq_iff_eq] at h
  rcases h with (h | h) | h
  · exact toUpper_eq_self c (by omega)
  · exact toUpper_eq_self c (by omega)
  · subst h
    decide

theorem noSpaceEnds_map_toUpper {l : Key} (h : NoSpaceEnds l) :
    NoSpaceEnds (l.map Char.toUpper) := by
  constructor
  · intro c hc
    rw [List.head?_map] at hc
    rcases Option.map_eq_some'.mp hc with ⟨c₀, hm, rfl⟩
    rw [isSpaceChar_toUpper]
    exact h.1 c₀ hm
  · intro c hc
    rw [List.getLast?_map] at hc
    rcases Option.map_eq_some'.mp hc with ⟨c₀, hm, rfl⟩
    rw [isSpaceChar_toUpper]
    exact h.2 c₀ hm

/-- Members of the left-pad output are padding zeros or input characters. -/
theorem mem_padNumbers {L : Nat} {l : Key} {c : Char} (h : c ∈ padNumbers L l) :
    c = '0' ∨ c ∈ l := by
  rcases padAux_mem h with h0 | hp | hl
  · exact Or.inl h0
  · simp at hp
  · exact Or.inr hl

theorem noSpaceEnds_padNumbers {L : Nat} {l : Key} (h : NoSpaceEnds l) :
    NoSpaceEnds (padNumbers L l) := by
  constructor
  · intro c hc
    cases l with
    | nil => simp [padNumbers, padAux] at hc
    | cons a cs =>
      unfold padNumbers at hc
      rw [padAux_cons_eq, if_pos (show ([] : Key).isEmpty = true from rfl)] at hc
      split at hc
      · next ha =>
        rcases @padAux_pending_head L cs false [a] (by simp) with hh | hh
        · rw [hh] at hc
          rcases Option.some.inj hc with rfl
          decide
        · rw [hh] at hc
          rcases Option.some.inj hc with rfl
          exact h.1 a rfl
      · simp only [List.head?_cons] at hc
        rcases Option.some.inj hc with rfl
        exact h.1 a rfl
  · intro c hc
    rcases @padAux_getLast L l false [] (by simp) c hc with h' | h'
    · exact h'
    · exact h.2 c h'

/-! ## Claim C4 (amended) — idempotence when collapse is disabled -/

/-- Claim C4 (amended): normalization is idempotent for every configuration
whose collapse-delimiters step is disabled (a falsy `collapse_delims`), with
the remaining toggles (trim, uppercase, strip, pad, pad length) arbitrary.
The counterexample `c4_default_config_not_idempotent` shows the claim fails
once collapse is enabled. -/
theorem c4_idempotent_when_collapse_disabled (n : Normalizer)
    (hc : n.collapseDelims = []) (key : Key) :
    normalize n (normalize n key) = normalize n key := by
  by_cases hk : key = []
  · subst hk
    simp [normalize]
  · have hstages := normalize_eq_stages n hk
    have hcol : ∀ l, collapseStage n l = l := by
      intro l
      simp [collapseStage, hc]
    have hallowed :
        (if n.collapseDelims ≠ [] then n.collapseDelims else ['-']) = ['-'] := by
      simp [hc]
    set t := trimStage n key with ht_def
    set u := upperStage n t with hu_def
    set s := stripStage n u with hs_def
    set p := padStage n s with hp_def2
    have hp_def : normalize n key = p := by rw [hstages, hcol]
    -- characters of the final key, by provenance
    have hmem_ps : ∀ c ∈ p, c = '0' ∨ c ∈ s := by
      intro c hcp
      rw [hp_def2] at hcp
      unfold padStage at hcp
      split at hcp
      · exact mem_padNumbers hcp
      · exact Or.inr hcp
    have hallow : n.stripNonAlnum = true → ∀ c ∈ p, isAllowedChar ['-'] c = true := by
      intro hstrip c hcp
      rcases hmem_ps c hcp with rfl | hcs
      · decide
      · rw [hs_def] at hcs
        unfold stripStage at hcs
        rw [if_pos hstrip, hallowed] at hcs
        exact (List.mem_filter.mp hcs).2
    have hupper : n.uppercase = true → ∀ c ∈ p, Char.toUpper c = c := by
      intro hup c hcp
      rcases hmem_ps c hcp with rfl | hcs
      · decide
      · have hcu : c ∈ u := by
          rw [hs_def] at hcs
          unfold stripStage at hcs
          split at hcs
          · exact (List.mem_filter.mp hcs).1
          · exact hcs
        rw [hu_def] at hcu
        unfold upperStage at hcu
        rw [if_pos hup] at hcu
        rcases List.mem_map.mp hcu with ⟨x, -, rfl⟩
        exact toUpper_eq_self _ (toUpper_not_lower x)
    have hends : n.trimWhitespace = true → NoSpaceEnds p := by
      intro htrim
      by_cases hstrip : n.stripNonAlnum = true
      · refine ⟨fun c hcp => ?_, fun c hcp => ?_⟩
        · exact allowed_dash_not_space
            (hallow hstrip c (List.mem_of_mem_head? hcp))
        · exact allowed_dash_not_space
            (hallow hstrip c (List.mem_of_getLast?_eq_some hcp))
      · have hts : NoSpaceEnds t := by
          rw [ht_def]
          unfold trimStage
          rw [if_pos htrim]
          exact pstrip_noSpaceEnds key
        have hus : NoSpaceEnds u := by
          rw [hu_def]
          unfold upperStage
          split
          · exact noSpaceEnds_map_toUpper hts
          · exact hts
        have hss : NoSpaceEnds s := by
          rw [hs_def]
          unfold stripStage
          rw [if_neg hstrip]
          exact hus
        rw [hp_def2]
        unfold padStage
        split
        · exact noSpaceEnds_padNumbers hss
        · exact hss
    -- second pass
    by_cases hp : p = []
    · rw [hp_def, hp]
      simp [normalize]
    · rw [hp_def, normalize_eq_stages n hp]
      have h1 : trimStage n p = p := by
        unfold trimStage
        split
        · next htrim => exact pstrip_eq_self (hends htrim)
        · rfl
      have h2 : upperStage n p = p := by
        unfold upperStage
        split
        · next hup => exact map_eq_self_of_forall (hupper hup)
        · rfl
      have h4 : stripStage n p = p := by
        unfold stripStage
        split
        · next hstrip =>
          rw [hallowed]
          exact List.filter_eq_self.mpr (hallow hstrip)
        · rfl
      have h5 : padStage n p = p := by
        unfold padStage
        split
        · next hpe =>
          rw [hp_def2]
          unfold padStage
          rw [if_pos hpe]
          exact padNumbers_idem _ _
        · rfl
      rw [h1, h2, hcol, h4, h5]

/-- Witness for the amended C4 theorem: a collapse-disabled configuration
(the defaults with `collapse_delims` explicitly falsy) on a concrete key. -/
theorem c4_idempotent_witness :
    (mkNormalizer (some { collapse_delims := some [] })).collapseDelims = []
      ∧ normalize (mkNormalizer (some { collapse_delims := some [] }))
          (normalize (mkNormalizer (some { collapse_delims := some [] }))
            "  a_ b-12  ".toList)
        = normalize (mkNormalizer (some { collapse_delims := some [] }))
            "  a_ b-12  ".toList :=
  ⟨by decide,
    c4_idempotent_when_collapse_disabled
      (mkNormalizer (some { collapse_delims := some [] })) (by decide)
      "  a_ b-12  ".toList⟩

/-- Claim C7 (amended): normalization applies its steps in the fixed order
trim, uppercase, collapse, strip, pad, each feeding the next; the collapse
step, however, applies only the first of its four substitutions (whitespace
runs, underscore runs, hyphen runs, mixed runs) that changes the key — in
particular whenever the whitespace substitution changes the key it is the
only one applied. -/
theorem c7_stage_order_and_first_pattern :
    (∀ (n : Normalizer) (key : Key), key ≠ [] →
        normalize n key =
          padStage n (stripStage n (collapseStage n (upperStage n (trimStage n key)))))
      ∧ (∀ (delim key : Key), subRuns isSpaceChar delim key ≠ key →
          collapseStep delim key = subRuns isSpaceChar delim key) := by
  constructor
  · intro n key h
    exact normalize_eq_stages n h
  · intro delim key h
    simp only [collapseStep]
    rw [if_pos h]

/-- Witness for the amended C7 theorem at the key `"a_b c"`. -/
theorem c7_stage_order_witness :
    ("a_b c".toList ≠ ([] : Key))
      ∧ normalize defaultNormalizer "a_b c".toList =
          padStage defaultNormalizer (stripStage defaultNormalizer
            (collapseStage defaultNormalizer (upperStage defaultNormalizer
              (trimStage defaultNormalizer "a_b c".toList))))
      ∧ subRuns isSpaceChar ['-'] "a_b c".toList ≠ "a_b c".toList
      ∧ collapseStep ['-'] "a_b c".toList = subRuns isSpaceChar ['-'] "a_b c".toList :=
  ⟨by decide,
    c7_stage_order_and_first_pattern.1 defaultNormalizer "a_b c".toList (by decide),
    by decide,
    c7_stage_order_and_first_pattern.2 ['-'] "a_b c".toList (by decide)⟩

/-! ## Comparator: per-system normalization maps (src/src/comparator.py)

Python's insertion-ordered `dict` is modelled as an association list; the
`set` of raw keys held per normalized key is modelled as a duplicate-free
list in first-insertion order (membership coincides with the Python set; no
modelled behaviour depends on the iteration order of a Python `set`). -/

/-- `normalized_map[normalized].add(key)`: insert `orig` into the group of
`nk`, creating the group at the end of the map when absent. -/
def addOrig (m : List (Key × List Key)) (nk orig : Key) : List (Key × List Key) :=
  match m with
  | [] => [(nk, [orig])]
  | (k, vs) :: rest =>
    if k = nk then (k, if orig ∈ vs then vs else vs ++ [orig]) :: rest
    else (k, vs) :: addOrig rest nk orig

/-- The fold of `addOrig` over a key list, starting from a given map. -/
def pushKeys (nrm : Normalizer) (acc : List (Key × List Key)) (keys : List Key) :
    List (Key × List Key) :=
  keys.foldl (fun a k => addOrig a (normalize nrm k) k) acc

/-- `Comparator.normalize_system_keys` (lines 65-87): the normalized-key →
raw-key-group map built from one list of keys (the duplicate recording the
same function performs as a side effect is modelled by `batchDuplicates`). -/
def normalizeSystemKeys (nrm : Normalizer) (keys : List Key) : List (Key × List Key) :=
  pushKeys nrm [] keys

/-- The duplicate groups of one batch: groups with more than one raw key
(lines 76-80). -/
def batchDuplicates (nrm : Normalizer) (batch : List Key) : List (Key × List Key) :=
  (normalizeSystemKeys nrm batch).filter (fun p => 1 < p.2.length)

/-- The batch slicing `keys[i:i+batch_size]` for `i in range(0, len, bs)`.
`fuel` makes the recursion structural; `chunks` supplies `l.length`, which
is enough fuel whenever `bs ≥ 1` (Python raises for a zero step, outside the
source's domain). -/
def chunksAux (bs : Nat) : Nat → List Key → List (List Key)
  | 0, l => if l.isEmpty then [] else [l]
  | _ + 1, [] => []
  | fuel + 1, c :: cs => (c :: cs.take (bs - 1)) :: chunksAux bs fuel (cs.drop (bs - 1))

/-- The list of batches of `l` of size `bs`. -/
def chunks (bs : Nat) (l : List Key) : List (List Key) := chunksAux bs l.length l

/-- Merging one batch map into the accumulated map
(`normalized_map[norm_key].update(orig_keys)`, lines 221-225). -/
def mergeBatch (acc bm : List (Key × List Key)) : List (Key × List Key) :=
  bm.foldl (fun a p => p.2.foldl (fun a o => addOrig a p.1 o) a) acc

/-- `Comparator.load_and_normalize_system` (lines 207-227), restricted to
its pure part: batch-wise normalization and merging of batch maps. -/
def loadAndNormalizeSystem (nrm : Normalizer) (bs : Nat) (keys : List Key) :
    List (Key × List Key) :=
  (chunks bs keys).foldl (fun acc b => mergeBatch acc (normalizeSystemKeys nrm b)) []

/-- The duplicate groups recorded for one system in
`stats['duplicates_found']` after batched processing: lines 82-85 run once
per batch and overwrite the entry whenever the batch has duplicates. -/
def recordedDuplicates (nrm : Normalizer) (bs : Nat) (keys : List Key) :
    Option (List (Key × List Key)) :=
  (chunks bs keys).foldl
    (fun acc b =>
      let d := batchDuplicates nrm b
      if d ≠ [] then some d else acc)
    none

/-! ## Claim C3 — batch-size independence -/

/-- Counterexample to claim C3 as stated: the *recorded duplicate groups*
are not batch-size independent.  For the system key list `["a", "A"]` both
keys normalize to `"A"`; with batch size 2 the duplicate group is detected
and recorded, with batch size 1 each batch is duplicate-free so nothing is
recorded — even though the merged normalized-key map is identical. -/
theorem c3_duplicates_depend_on_batch_size :
    loadAndNormalizeSystem defaultNormalizer 1 ["a".toList, "A".toList]
        = loadAndNormalizeSystem defaultNormalizer 2 ["a".toList, "A".toList]
      ∧ recordedDuplicates defaultNormalizer 2 ["a".toList, "A".toList]
          = some [("A".toList, ["a".toList, "A".toList])]
      ∧ recordedDuplicates defaultNormalizer 1 ["a".toList, "A".toList] = none
      ∧ recordedDuplicates defaultNormalizer 1 ["a".toList, "A".toList]
          ≠ recordedDuplicates defaultNormalizer 2 ["a".toList, "A".toList] := by
  refine ⟨by decide, by decide, by decide, by decide⟩

/-! ### Batch independence of the merged normalized-key map -/

/-- Key lookup in an association map. -/
def getVal : List (Key × List Key) → Key → List Key
  | [], _ => []
  | (k, vs) :: rest, nk => if k = nk then vs else getVal rest nk

/-- Key presence in an association map. -/
def hasKey : List (Key × List Key) → Key → Prop
  | [], _ => False
  | (k, _) :: rest, nk => k = nk ∨ hasKey rest nk

theorem hasKey_addOrig_self (m : List (Key × List Key)) (nk o : Key) :
    hasKey (addOrig m nk o) nk := by
  induction m with
  | nil => exact Or.inl rfl
  | cons p rest ih =>
    obtain ⟨k, vs⟩ := p
    unfold addOrig
    split
    · next h => exact Or.inl h
    · exact Or.inr ih

theorem hasKey_addOrig_mono {m : List (Key × List Key)} {k : Key}
    (h : hasKey m k) (nk o : Key) : hasKey (addOrig m nk o) k := by
  induction m with
  | nil => cases h
  | cons p rest ih =>
    obtain ⟨k1, vs⟩ := p
    unfold addOrig
    split
    · rcases h with h | h
      · exact Or.inl h
      · exact Or.inr h
    · rcases h with h | h
      · exact Or.inl h
      · exact Or.inr (ih h)

theorem getVal_addOrig_ne {m : List (Key × List Key)} {nk k : Key}
    (hne : nk ≠ k) (o : Key) : getVal (addOrig m nk o) k = getVal m k := by
  induction m with
  | nil =>
    unfold addOrig getVal
    rw [if_neg hne]
    rfl
  | cons p rest ih =>
    obtain ⟨k1, vs⟩ := p
    unfold addOrig
    split
    · next h =>
      subst h
      unfold getVal
      rw [if_neg hne, if_neg hne]
    · unfold getVal
      split
      · rfl
      · exact ih

theorem mem_getVal_addOrig_self {m : List (Key × List Key)} (nk o : Key) :
    o ∈ getVal (addOrig m nk o) nk := by
  induction m with
  | nil =>
    unfold addOrig getVal
    rw [if_pos rfl]
    exact List.mem_singleton_self o
  | cons p rest ih =>
    obtain ⟨k1, vs⟩ := p
    unfold addOrig
    split
    · next h =>
      subst h
      unfold getVal
      rw [if_pos rfl]
      split
      · next hmem => exact hmem
      · exact List.mem_append_right _ (List.mem_singleton_self o)
    · next h =>
      unfold getVal
      rw [if_neg h]
      exact ih

theorem mem_getVal_addOrig_mono {m : List (Key × List Key)} {k x : Key}
    (h : x ∈ getVal m k) (nk o : Key) : x ∈ getVal (addOrig m nk o) k := by
  by_cases hne : nk = k
  · subst hne
    induction m with
    | nil => cases h
    | cons p rest ih =>
      obtain ⟨k1, vs⟩ := p
      unfold addOrig
      split
      · next heq =>
        subst heq
        unfold getVal at h ⊢
        rw [if_pos rfl] at h ⊢
        split
        · exact h
        · exact List.mem_append_left _ h
      · next heq =>
        unfold getVal at h ⊢
        rw [if_neg heq] at h ⊢
        exact ih h
  · rw [getVal_addOrig_ne hne]
    exact h

/-- `addOrig` is a no-op when the raw key is already in its group. -/
theorem addOrig_noop {m : List (Key × List Key)} {nk o : Key}
    (hk : hasKey m nk) (ho : o ∈ getVal m nk) : addOrig m nk o = m := by
  induction m with
  | nil => cases hk
  | cons p rest ih =>
    obtain ⟨k1, vs⟩ := p
    unfold addOrig
    split
    · next heq =>
      subst heq
      unfold getVal at ho
      rw [if_pos rfl] at ho
      rw [if_pos ho]
    · next heq =>
      rcases hk with h | h
      · exact absurd h heq
      · unfold getVal at ho
        rw [if_neg heq] at ho
        rw [ih h ho]

/-- Reduction of `addOrig` on a cons cell. -/
theorem addOrig_cons_eq (k1 : Key) (vs : List Key) (rest : List (Key × List Key))
    (nk o : Key) :
    addOrig ((k1, vs) :: rest) nk o =
      if k1 = nk then (k1, if o ∈ vs then vs else vs ++ [o]) :: rest
      else (k1, vs) :: addOrig rest nk o := rfl

/-- Updates of two distinct keys commute once the first key is present
(presence rules out the case where insertion order decides map order). -/
theorem addOrig_comm {a : List (Key × List Key)} {k k2 : Key}
    (hne : k ≠ k2) (hk : hasKey a k) (o o2 : Key) :
    addOrig (addOrig a k o) k2 o2 = addOrig (addOrig a k2 o2) k o := by
  induction a with
  | nil => cases hk
  | cons p rest ih =>
    obtain ⟨k1, vs⟩ := p
    by_cases h1 : k1 = k
    · have hk1k2 : ¬k1 = k2 := by rw [h1]; exact hne
      rw [show addOrig ((k1, vs) :: rest) k o
          = (k1, if o ∈ vs then vs else vs ++ [o]) :: rest from by
        rw [addOrig_cons_eq, if_pos h1]]
      rw [show addOrig ((k1, vs) :: rest) k2 o2
          = (k1, vs) :: addOrig rest k2 o2 from by
        rw [addOrig_cons_eq, if_neg hk1k2]]
      rw [show addOrig ((k1, if o ∈ vs then vs else vs ++ [o]) :: rest) k2 o2
          = (k1, if o ∈ vs then vs else vs ++ [o]) :: addOrig rest k2 o2 from by
        rw [addOrig_cons_eq, if_neg hk1k2]]
      rw [show addOrig ((k1, vs) :: addOrig rest k2 o2) k o
          = (k1, if o ∈ vs then vs else vs ++ [o]) :: addOrig rest k2 o2 from by
        rw [addOrig_cons_eq, if_pos h1]]
    · have hrest : hasKey rest k := by
        rcases hk with h | h
        · exact absurd h h1
        · exact h
      by_cases h2 : k1 = k2
      · rw [show addOrig ((k1, vs) :: rest) k o
            = (k1, vs) :: addOrig rest k o from by
          rw [addOrig_cons_eq, if_neg h1]]
        rw [show addOrig ((k1, vs) :: addOrig rest k o) k2 o2
            = (k1, if o2 ∈ vs then vs else vs ++ [o2]) :: addOrig rest k o from by
          rw [addOrig_cons_eq, if_pos h2]]
        rw [show addOrig ((k1, vs) :: rest) k2 o2
            = (k1, if o2 ∈ vs then vs else vs ++ [o2]) :: rest from by
          rw [addOrig_cons_eq, if_pos h2]]
        rw [show addOrig ((k1, if o2 ∈ vs then vs else vs ++ [o2]) :: rest) k o
            = (k1, if o2 ∈ vs then vs else vs ++ [o2]) :: addOrig rest k o from by
          rw [addOrig_cons_eq, if_neg h1]]
      · rw [show addOrig ((k1, vs) :: rest) k o
            = (k1, vs) :: addOrig rest k o from by
          rw [addOrig_cons_eq, if_neg h1]]
        rw [show addOrig ((k1, vs) :: addOrig rest k o) k2 o2
            = (k1, vs) :: addOrig (addOrig rest k o) k2 o2 from by
          rw [addOrig_cons_eq, if_neg h2]]
        rw [show addOrig ((k1, vs) :: rest) k2 o2
            = (k1, vs) :: addOrig rest k2 o2 from by
          rw [addOrig_cons_eq, if_neg h2]]
        rw [show addOrig ((k1, vs) :: addOrig rest k2 o2) k o
            = (k1, vs) :: addOrig (addOrig rest k2 o2) k o from by
          rw [addOrig_cons_eq, if_neg h1]]
        rw [ih hrest]

/-- Replaying one normalized-key group into a map. -/
def replayGroup (a : List (Key × List Key)) (k : Key) (vs : List Key) :
    List (Key × List Key) :=
  vs.foldl (fun a o => addOrig a k o) a

theorem mergeBatch_cons (acc : List (Key × List Key)) (k : Key) (vs : List Key)
    (m : List (Key × List Key)) :
    mergeBatch acc ((k, vs) :: m) = mergeBatch (replayGroup acc k vs) m := rfl

theorem hasKey_replayGroup_mono {a : List (Key × List Key)} {k' : Key}
    (h : hasKey a k') (k : Key) (vs : List Key) :
    hasKey (replayGroup a k vs) k' := by
  induction vs generalizing a with
  | nil => exact h
  | cons v vs ih => exact ih (hasKey_addOrig_mono h k v)

theorem hasKey_replayGroup_self {vs : List Key} (h : vs ≠ [])
    (a : List (Key × List Key)) (k : Key) :
    hasKey (replayGroup a k vs) k := by
  cases vs with
  | nil => exact absurd rfl h
  | cons v vs => exact hasKey_replayGroup_mono (hasKey_addOrig_self a k v) k vs

theorem hasKey_mergeBatch_mono {a : List (Key × List Key)} {k : Key}
    (h : hasKey a k) (m : List (Key × List Key)) :
    hasKey (mergeBatch a m) k := by
  induction m generalizing a with
  | nil => exact h
  | cons p rest ih =>
    obtain ⟨k1, vs1⟩ := p
    rw [mergeBatch_cons]
    exact ih (hasKey_replayGroup_mono h k1 vs1)

theorem mem_getVal_replayGroup_mono {a : List (Key × List Key)} {k x : Key}
    (h : x ∈ getVal a k) (k2 : Key) (vs : List Key) :
    x ∈ getVal (replayGroup a k2 vs) k := by
  induction vs generalizing a with
  | nil => exact h
  | cons v vs ih => exact ih (mem_getVal_addOrig_mono h k2 v)

theorem mem_getVal_replayGroup {vs : List Key} {o : Key} (h : o ∈ vs)
    (a : List (Key × List Key)) (k : Key) :
    o ∈ getVal (replayGroup a k vs) k := by
  induction vs generalizing a with
  | nil => cases h
  | cons v vs ih =>
    rcases List.mem_cons.mp h with rfl | h'
    · exact mem_getVal_replayGroup_mono (mem_getVal_addOrig_self k o) k vs
    · exact ih h' (addOrig a k v)

/-- Replaying a foreign group past a fresh update of a present key. -/
theorem replayGroup_addOrig {a : List (Key × List Key)} {k k2 : Key}
    (hne : k ≠ k2) (hk : hasKey a k) (o : Key) (vs : List Key) :
    replayGroup (addOrig a k o) k2 vs = addOrig (replayGroup a k2 vs) k o := by
  induction vs generalizing a with
  | nil => rfl
  | cons v vs ih =>
    show replayGroup (addOrig (addOrig a k o) k2 v) k2 vs
      = addOrig (replayGroup (addOrig a k2 v) k2 vs) k o
    rw [addOrig_comm hne hk o v]
    exact ih (hasKey_addOrig_mono hk k2 v)

/-- Merging a batch whose keys avoid `k` past a fresh update of `k`. -/
theorem mergeBatch_addOrig_notin {m : List (Key × List Key)} {k : Key}
    (hm : ∀ p ∈ m, p.1 ≠ k) :
    ∀ {a : List (Key × List Key)}, hasKey a k → ∀ o,
      mergeBatch (addOrig a k o) m = addOrig (mergeBatch a m) k o := by
  induction m with
  | nil => intro a _ o; rfl
  | cons p rest ih =>
    obtain ⟨k1, vs1⟩ := p
    intro a hk o
    have hk1 : k ≠ k1 := fun h => hm (k1, vs1) (List.mem_cons_self _ _) (h ▸ rfl)
    rw [mergeBatch_cons, mergeBatch_cons,
      replayGroup_addOrig hk1 hk o vs1,
      ih (fun p hp => hm p (List.mem_cons_of_mem _ hp))
        (hasKey_replayGroup_mono hk k1 vs1) o]

/-- The group keys of a map. -/
def domKeys (m : List (Key × List Key)) : List Key := m.map Prod.fst

theorem hasKey_iff_mem_dom {m : List (Key × List Key)} {k : Key} :
    hasKey m k ↔ k ∈ domKeys m := by
  induction m with
  | nil => simp [hasKey, domKeys]
  | cons p rest ih =>
    obtain ⟨k1, vs1⟩ := p
    simp only [hasKey, domKeys, List.map_cons, List.mem_cons]
    constructor
    · rintro (rfl | h)
      · exact Or.inl rfl
      · exact Or.inr (ih.mp h)
    · rintro (rfl | h)
      · exact Or.inl rfl
      · exact Or.inr (ih.mpr h)

theorem domKeys_addOrig_of_hasKey {m : List (Key × List Key)} {nk : Key}
    (h : hasKey m nk) (o : Key) : domKeys (addOrig m nk o) = domKeys m := by
  induction m with
  | nil => cases h
  | cons p rest ih =>
    obtain ⟨k1, vs1⟩ := p
    rw [addOrig_cons_eq]
    split
    · rfl
    · next hne =>
      rcases h with h | h
      · exact absurd h hne
      · simp only [domKeys, List.map_cons]
        rw [show (addOrig rest nk o).map Prod.fst = domKeys (addOrig rest nk o) from rfl,
          ih h]
        rfl

theorem domKeys_addOrig_of_not_hasKey {m : List (Key × List Key)} {nk : Key}
    (h : ¬hasKey m nk) (o : Key) :
    domKeys (addOrig m nk o) = domKeys m ++ [nk] := by
  induction m with
  | nil => rfl
  | cons p rest ih =>
    obtain ⟨k1, vs1⟩ := p
    rw [addOrig_cons_eq]
    split
    · next he => exact absurd (Or.inl he) h
    · simp only [domKeys, List.map_cons]
      rw [show (addOrig rest nk o).map Prod.fst = domKeys (addOrig rest nk o) from rfl,
        ih (fun hr => h (Or.inr hr))]
      rfl

theorem nodup_domKeys_addOrig {m : List (Key × List Key)}
    (h : (domKeys m).Nodup) (nk o : Key) :
    (domKeys (addOrig m nk o)).Nodup := by
  by_cases hk : hasKey m nk
  · rw [domKeys_addOrig_of_hasKey hk]
    exact h
  · rw [domKeys_addOrig_of_not_hasKey hk]
    refine List.Nodup.append h (List.nodup_singleton nk) ?_
    intro x hx hx'
    rcases List.mem_singleton.mp hx' with rfl
    exact hk (hasKey_iff_mem_dom.mpr hx)

theorem valsNonempty_addOrig {m : List (Key × List Key)}
    (h : ∀ p ∈ m, p.2 ≠ []) (nk o : Key) :
    ∀ p ∈ addOrig m nk o, p.2 ≠ [] := by
  induction m with
  | nil =>
    intro p hp
    rcases List.mem_singleton.mp hp with rfl
    simp
  | cons q rest ih =>
    obtain ⟨k1, vs1⟩ := q
    rw [addOrig_cons_eq]
    split
    · intro p hp
      rcases List.mem_cons.mp hp with rfl | hp'
      · have h1 : vs1 ≠ [] := h (k1, vs1) (List.mem_cons_self _ _)
        split
        · exact h1
        · simp
      · exact h p (List.mem_cons_of_mem _ hp')
    · intro p hp
      rcases List.mem_cons.mp hp with rfl | hp'
      · exact h (k1, vs1) (List.mem_cons_self _ _)
      · exact ih (fun q hq => h q (List.mem_cons_of_mem _ hq)) p hp'

/-- Merging a batch map distributes over a single raw-key insertion, for
maps in canonical form (duplicate-free keys, nonempty groups). -/
theorem mergeBatch_addOrig {m : List (Key × List Key)}
    (hnd : (domKeys m).Nodup) (hv : ∀ p ∈ m, p.2 ≠ []) :
    ∀ (acc : List (Key × List Key)) (nk o : Key),
      mergeBatch acc (addOrig m nk o) = addOrig (mergeBatch acc m) nk o := by
  induction m with
  | nil =>
    intro acc nk o
    rfl
  | cons p rest ih =>
    obtain ⟨k, vs⟩ := p
    intro acc nk o
    have hvs : vs ≠ [] := hv (k, vs) (List.mem_cons_self _ _)
    rw [addOrig_cons_eq]
    split
    · next hk =>
      subst hk
      rw [mergeBatch_cons, mergeBatch_cons]
      have hrest : ∀ p ∈ rest, p.1 ≠ k := by
        intro p hp he
        have h1 : k ∈ domKeys rest := by
          rw [← he]
          exact List.mem_map_of_mem Prod.fst hp
        simp only [domKeys, List.map_cons] at hnd
        exact (List.nodup_cons.mp hnd).1 h1
      rw [← mergeBatch_addOrig_notin hrest (hasKey_replayGroup_self hvs acc k) o]
      congr 1
      split
      · next ho =>
        exact (addOrig_noop (hasKey_replayGroup_self hvs acc k)
          (mem_getVal_replayGroup ho acc k)).symm
      · exact List.foldl_append _ _ _ _
    · next hk =>
      rw [mergeBatch_cons, mergeBatch_cons,
        ih (by
            simp only [domKeys, List.map_cons] at hnd
            exact (List.nodup_cons.mp hnd).2)
          (fun q hq => hv q (List.mem_cons_of_mem _ hq))]

theorem pushKeys_cons (nrm : Normalizer) (acc : List (Key × List Key))
    (k : Key) (b : List Key) :
    pushKeys nrm acc (k :: b) = pushKeys nrm (addOrig acc (normalize nrm k) k) b := rfl

theorem pushKeys_append (nrm : Normalizer) (acc : List (Key × List Key))
    (l1 l2 : List Key) :
    pushKeys nrm acc (l1 ++ l2) = pushKeys nrm (pushKeys nrm acc l1) l2 :=
  List.foldl_append _ _ _ _

theorem nodup_domKeys_pushKeys (nrm : Normalizer) (b : List Key)
    {m : List (Key × List Key)} (hnd : (domKeys m).Nodup) :
    (domKeys (pushKeys nrm m b)).Nodup := by
  induction b generalizing m with
  | nil => exact hnd
  | cons k b ih => exact ih (nodup_domKeys_addOrig hnd _ _)

theorem valsNonempty_pushKeys (nrm : Normalizer) (b : List Key)
    {m : List (Key × List Key)} (hv : ∀ p ∈ m, p.2 ≠ []) :
    ∀ p ∈ pushKeys nrm m b, p.2 ≠ [] := by
  induction b generalizing m with
  | nil => exact hv
  | cons k b ih => exact ih (valsNonempty_addOrig hv _ _)

/-- Merging the map of a batch equals replaying the batch's raw keys. -/
theorem mergeBatch_pushKeys (nrm : Normalizer) :
    ∀ (b : List Key) {m : List (Key × List Key)},
      (domKeys m).Nodup → (∀ p ∈ m, p.2 ≠ []) →
      ∀ acc, mergeBatch acc (pushKeys nrm m b) = pushKeys nrm (mergeBatch acc m) b := by
  intro b
  induction b with
  | nil =>
    intro m _ _ acc
    rfl
  | cons k b ih =>
    intro m hnd hv acc
    rw [pushKeys_cons, pushKeys_cons,
      ih (nodup_domKeys_addOrig hnd _ _) (valsNonempty_addOrig hv _ _) acc,
      mergeBatch_addOrig hnd hv acc]

theorem mergeBatch_normalizeSystemKeys (nrm : Normalizer) (b : List Key)
    (acc : List (Key × List Key)) :
    mergeBatch acc (normalizeSystemKeys nrm b) = pushKeys nrm acc b := by
  rw [normalizeSystemKeys,
    mergeBatch_pushKeys nrm b (by simp [domKeys]) (by simp) acc]
  rfl

theorem chunksAux_flatten (bs : Nat) :
    ∀ (fuel : Nat) (l : List Key), l.length ≤ fuel →
      (chunksAux bs fuel l).flatten = l := by
  intro fuel
  induction fuel with
  | zero =>
    intro l hl
    rw [List.length_eq_zero.mp (Nat.le_zero.mp hl)]
    rfl
  | succ fuel ih =>
    intro l hl
    cases l with
    | nil => rfl
    | cons c cs =>
      show ((c :: cs.take (bs - 1)) :: chunksAux bs fuel (cs.drop (bs - 1))).flatten
        = c :: cs
      rw [List.flatten_cons, ih (cs.drop (bs - 1))
        (by
          rw [List.length_drop]
          have h1 : cs.length ≤ fuel := by simpa using hl
          omega)]
      simp [List.take_append_drop]

theorem chunks_flatten (bs : Nat) (l : List Key) : (chunks bs l).flatten = l :=
  chunksAux_flatten bs l.length l (Nat.le_refl _)

/-! ## Claim C3 (amended) — the merged map is batch independent -/

/-- Claim C3 (amended): for every key list and every batch size ≥ 1, the
merged per-system normalized-key map produced by batched processing is
identical to the map produced in one pass — hence so are all comparison
sets derived from it.  (The recorded duplicate groups are *not* batch
independent: see `c3_duplicates_depend_on_batch_size`.) -/
theorem c3_normalized_map_batch_independent (nrm : Normalizer) (keys : List Key)
    (bs : Nat) (hbs : 1 ≤ bs) :
    loadAndNormalizeSystem nrm bs keys = normalizeSystemKeys nrm keys := by
  have hfold : ∀ (cl : List (List Key)) (acc : List (Key × List Key)),
      cl.foldl (fun acc b => mergeBatch acc (normalizeSystemKeys nrm b)) acc
        = pushKeys nrm acc cl.flatten := by
    intro cl
    induction cl with
    | nil =>
      intro acc
      rfl
    | cons b cl ih =>
      intro acc
      rw [List.foldl_cons, ih, List.flatten_cons, pushKeys_append,
        mergeBatch_normalizeSystemKeys]
  rw [loadAndNormalizeSystem, hfold, chunks_flatten]
  rfl

/-- Witness for the amended C3 theorem: batch size 2 on three keys. -/
theorem c3_batch_independence_witness :
    1 ≤ 2
      ∧ loadAndNormalizeSystem defaultNormalizer 2
          ["k 1".toList, "K-1".toList, "x".toList]
        = normalizeSystemKeys defaultNormalizer
            ["k 1".toList, "K-1".toList, "x".toList] :=
  ⟨by decide,
    c3_normalized_map_batch_independent defaultNormalizer
      ["k 1".toList, "K-1".toList, "x".toList] 2 (by decide)⟩

/-! ## Cross-system comparison (src/src/comparator.py, compare_all_systems)

The pipeline's system universe is the authoritative system `A` and the
dependent systems `B..E` (spec §2; `['A','B','C','D','E']` throughout
keysync.py, reconciler.py and the comparison loops). -/

/-- The five systems of the pipeline. -/
inductive Sys
  | A
  | B
  | C
  | D
  | E
  deriving DecidableEq, Repr

/-- The dependent systems, in the order the source iterates them. -/
def sysOthers : List Sys := [Sys.B, Sys.C, Sys.D, Sys.E]

/-- All five systems, in the order the source iterates them. -/
def sysAll : List Sys := [Sys.A, Sys.B, Sys.C, Sys.D, Sys.E]

/-- A system is present when its data was loaded (a missing file loads as an
empty key list, so a system is absent only when it has no entry at all). -/
def present (data : Sys → Option (List Key)) (s : Sys) : Bool :=
  (data s).isSome

/-- The set of normalized keys of one loaded system
(`set(system_data[s]['normalized'].keys())`). -/
def keysOf (nrm : Normalizer) (bs : Nat) (data : Sys → Option (List Key))
    (s : Sys) : Finset Key :=
  match data s with
  | some keys => (domKeys (loadAndNormalizeSystem nrm bs keys)).toFinset
  | none => ∅

/-- The statistics block of a comparison result. -/
structure ComparisonStats where
  total_unique_keys : Nat
  keys_in_a : Nat
  keys_only_in_a : Nat
  keys_missing_in_a : Nat
  keys_in_all_systems : Nat
  match_percentage : ℚ
  system_counts : Sys → Option Nat
  duplicates : Sys → Option (List (Key × List Key))

/-- The result dict of `compare_all_systems`. -/
structure ComparisonResult where
  system_keys : Sys → Option (List (Key × List Key))
  all_keys : Finset Key
  keys_only_in_a : Finset Key
  keys_missing_in_a : Finset Key
  keys_in_all_systems : Finset Key
  system_specific_gaps : Sys → Option (Finset Key)
  statistics : Option ComparisonStats

/-- The comparison computed when system A's data is present
(src/src/comparator.py lines 145-205). -/
def compareAllPresent (nrm : Normalizer) (bs : Nat)
    (data : Sys → Option (List Key)) : ComparisonResult :=
  let presentSys := fun s => present data s
  let allKeys := (sysAll.filter presentSys).foldl
    (fun acc s => acc ∪ keysOf nrm bs data s) ∅
  let aKeys := keysOf nrm bs data Sys.A
  let othersPresent := sysOthers.filter presentSys
  let onlyInA := othersPresent.foldl (fun acc s => acc \ keysOf nrm bs data s) aKeys
  let keysInOthers := othersPresent.foldl (fun acc s => acc ∪ keysOf nrm bs data s) ∅
  let missingInA := keysInOthers \ aKeys
  let inAll := othersPresent.foldl (fun acc s => acc ∩ keysOf nrm bs data s) aKeys
  { system_keys := fun s => (data s).map (loadAndNormalizeSystem nrm bs)
    all_keys := allKeys
    keys_only_in_a := onlyInA
    keys_missing_in_a := missingInA
    keys_in_all_systems := inAll
    system_specific_gaps := fun s =>
      if s ∈ sysOthers ∧ presentSys s then some (aKeys \ keysOf nrm bs data s)
      else none
    statistics := some
      { total_unique_keys := allKeys.card
        keys_in_a := aKeys.card
        keys_only_in_a := onlyInA.card
        keys_missing_in_a := missingInA.card
        keys_in_all_systems := inAll.card
        match_percentage :=
          if 0 < allKeys.card then (inAll.card : ℚ) / (allKeys.card : ℚ) * 100 else 0
        system_counts := fun s => ((data s).map (loadAndNormalizeSystem nrm bs)).map List.length
        duplicates := fun s => (data s).bind (recordedDuplicates nrm bs) } }

/-- `Comparator.compare_all_systems` (lines 93-205): every supplied system is
loaded and normalized; if system A is absent the initialized result — empty
comparison fields and empty statistics — is returned with no set algebra
performed. -/
def compareAll (nrm : Normalizer) (bs : Nat)
    (data : Sys → Option (List Key)) : ComparisonResult :=
  if present data Sys.A then compareAllPresent nrm bs data
  else
    { system_keys := fun s => (data s).map (loadAndNormalizeSystem nrm bs)
      all_keys := ∅
      keys_only_in_a := ∅
      keys_missing_in_a := ∅
      keys_in_all_systems := ∅
      system_specific_gaps := fun _ => none
      statistics := none }

/-! ### Membership in the comparison folds -/

theorem mem_foldl_union (f : Sys → Finset Key) :
    ∀ (ls : List Sys) (acc : Finset Key) (k : Key),
      (k ∈ ls.foldl (fun acc s => acc ∪ f s) acc) ↔ k ∈ acc ∨ ∃ s ∈ ls, k ∈ f s := by
  intro ls
  induction ls with
  | nil => simp
  | cons s ls ih =>
    intro acc k
    rw [List.foldl_cons, ih]
    simp only [Finset.mem_union, List.mem_cons]
    constructor
    · rintro ((h | h) | ⟨s', hs', h⟩)
      · exact Or.inl h
      · exact Or.inr ⟨s, Or.inl rfl, h⟩
      · exact Or.inr ⟨s', Or.inr hs', h⟩
    · rintro (h | ⟨s', (rfl | hs'), h⟩)
      · exact Or.inl (Or.inl h)
      · exact Or.inl (Or.inr h)
      · exact Or.inr ⟨s', hs', h⟩

theorem mem_foldl_sdiff (f : Sys → Finset Key) :
    ∀ (ls : List Sys) (acc : Finset Key) (k : Key),
      (k ∈ ls.foldl (fun acc s => acc \ f s) acc) ↔
        k ∈ acc ∧ ∀ s ∈ ls, k ∉ f s := by
  intro ls
  induction ls with
  | nil => simp
  | cons s ls ih =>
    intro acc k
    rw [List.foldl_cons, ih]
    simp only [Finset.mem_sdiff, List.mem_cons]
    constructor
    · rintro ⟨⟨ha, hs⟩, hrest⟩
      refine ⟨ha, fun s' hs' => ?_⟩
      rcases hs' with rfl | hs'
      · exact hs
      · exact hrest s' hs'
    · rintro ⟨ha, hforall⟩
      exact ⟨⟨ha, hforall s (Or.inl rfl)⟩, fun s' hs' => hforall s' (Or.inr hs')⟩

theorem mem_foldl_inter (f : Sys → Finset Key) :
    ∀ (ls : List Sys) (acc : Finset Key) (k : Key),
      (k ∈ ls.foldl (fun acc s => acc ∩ f s) acc) ↔
        k ∈ acc ∧ ∀ s ∈ ls, k ∈ f s := by
  intro ls
  induction ls with
  | nil => simp
  | cons s ls ih =>
    intro acc k
    rw [List.foldl_cons, ih]
    simp only [Finset.mem_inter, List.mem_cons]
    constructor
    · rintro ⟨⟨ha, hs⟩, hrest⟩
      refine ⟨ha, fun s' hs' => ?_⟩
      rcases hs' with rfl | hs'
      · exact hs
      · exact hrest s' hs'
    · rintro ⟨ha, hforall⟩
      exact ⟨⟨ha, hforall s (Or.inl rfl)⟩, fun s' hs' => hforall s' (Or.inr hs')⟩

theorem mem_sysAll (s : Sys) : s ∈ sysAll := by
  cases s <;> simp [sysAll]

/-! ## Claim C6 — set algebra of the comparison -/

/-- Claim C6: when system A is present, the comparison fields are exactly
the claimed set algebra over normalized keys — `all_keys` is the union over
present systems, `keys_only_in_a` is A minus the present dependent systems,
`keys_missing_in_a` is their union minus A, `keys_in_all_systems` is the
intersection of A with every present dependent system, and each present
dependent system's gap is A minus that system; the match percentage follows
the claimed formula, lies in `[0, 100]`, `keys_in_all_systems ⊆ all_keys`,
and `keys_only_in_a ∩ keys_missing_in_a = ∅`. -/
theorem c6_comparison_set_algebra (nrm : Normalizer) (bs : Nat)
    (data : Sys → Option (List Key)) (hA : present data Sys.A = true) :
    (∀ k, k ∈ (compareAll nrm bs data).all_keys ↔
        ∃ s, present data s = true ∧ k ∈ keysOf nrm bs data s)
      ∧ (∀ k, k ∈ (compareAll nrm bs data).keys_only_in_a ↔
          k ∈ keysOf nrm bs data Sys.A ∧
            ∀ s ∈ sysOthers, present data s = true → k ∉ keysOf nrm bs data s)
      ∧ (∀ k, k ∈ (compareAll nrm bs data).keys_missing_in_a ↔
          (∃ s ∈ sysOthers, present data s = true ∧ k ∈ keysOf nrm bs data s)
            ∧ k ∉ keysOf nrm bs data Sys.A)
      ∧ (∀ k, k ∈ (compareAll nrm bs data).keys_in_all_systems ↔
          k ∈ keysOf nrm bs data Sys.A ∧
            ∀ s ∈ sysOthers, present data s = true → k ∈ keysOf nrm bs data s)
      ∧ (∀ s ∈ sysOthers, present data s = true →
          (compareAll nrm bs data).system_specific_gaps s
            = some (keysOf nrm bs data Sys.A \ keysOf nrm bs data s))
      ∧ (∃ st, (compareAll nrm bs data).statistics = some st
          ∧ st.match_percentage =
              (if (compareAll nrm bs data).all_keys.card = 0 then 0
               else ((compareAll nrm bs data).keys_in_all_systems.card : ℚ)
                 / ((compareAll nrm bs data).all_keys.card : ℚ) * 100)
          ∧ 0 ≤ st.match_percentage ∧ st.match_percentage ≤ 100)
      ∧ (compareAll nrm bs data).keys_in_all_systems ⊆ (compareAll nrm bs data).all_keys
      ∧ (compareAll nrm bs data).keys_only_in_a ∩ (compareAll nrm bs data).keys_missing_in_a
          = ∅ := by
  have hr : compareAll nrm bs data = compareAllPresent nrm bs data := by
    rw [compareAll, if_pos hA]
  rw [hr]
  have hall : ∀ k, k ∈ (compareAllPresent nrm bs data).all_keys ↔
      ∃ s, present data s = true ∧ k ∈ keysOf nrm bs data s := by
    intro k
    show k ∈ (sysAll.filter (fun s => present data s)).foldl
        (fun acc s => acc ∪ keysOf nrm bs data s) ∅ ↔ _
    rw [mem_foldl_union]
    simp only [Finset.not_mem_empty, false_or, List.mem_filter]
    constructor
    · rintro ⟨s, ⟨-, hp⟩, hk⟩
      exact ⟨s, hp, hk⟩
    · rintro ⟨s, hp, hk⟩
      exact ⟨s, ⟨mem_sysAll s, hp⟩, hk⟩
  have honly : ∀ k, k ∈ (compareAllPresent nrm bs data).keys_only_in_a ↔
      k ∈ keysOf nrm bs data Sys.A ∧
        ∀ s ∈ sysOthers, present data s = true → k ∉ keysOf nrm bs data s := by
    intro k
    show k ∈ (sysOthers.filter (fun s => present data s)).foldl
        (fun acc s => acc \ keysOf nrm bs data s) (keysOf nrm bs data Sys.A) ↔ _
    rw [mem_foldl_sdiff]
    simp only [List.mem_filter]
    constructor
    · rintro ⟨ha, hforall⟩
      exact ⟨ha, fun s hs hp => hforall s ⟨hs, hp⟩⟩
    · rintro ⟨ha, hforall⟩
      exact ⟨ha, fun s hs => hforall s hs.1 hs.2⟩
  have hmissing : ∀ k, k ∈ (compareAllPresent nrm bs data).keys_missing_in_a ↔
      (∃ s ∈ sysOthers, present data s = true ∧ k ∈ keysOf nrm bs data s)
        ∧ k ∉ keysOf nrm bs data Sys.A := by
    intro k
    show k ∈ (sysOthers.filter (fun s => present data s)).foldl
        (fun acc s => acc ∪ keysOf nrm bs data s) ∅ \ keysOf nrm bs data Sys.A ↔ _
    rw [Finset.mem_sdiff, mem_foldl_union]
    simp only [Finset.not_mem_empty, false_or, List.mem_filter]
    constructor
    · rintro ⟨⟨s, ⟨hs, hp⟩, hk⟩, hna⟩
      exact ⟨⟨s, hs, hp, hk⟩, hna⟩
    · rintro ⟨⟨s, hs, hp, hk⟩, hna⟩
      exact ⟨⟨s, ⟨hs, hp⟩, hk⟩, hna⟩
  have hinall : ∀ k, k ∈ (compareAllPresent nrm bs data).keys_in_all_systems ↔
      k ∈ keysOf nrm bs data Sys.A ∧
        ∀ s ∈ sysOthers, present data s = true → k ∈ keysOf nrm bs data s := by
    intro k
    show k ∈ (sysOthers.filter (fun s => present data s)).foldl
        (fun acc s => acc ∩ keysOf nrm bs data s) (keysOf nrm bs data Sys.A) ↔ _
    rw [mem_foldl_inter]
    simp only [List.mem_filter]
    constructor
    · rintro ⟨ha, hforall⟩
      exact ⟨ha, fun s hs hp => hforall s ⟨hs, hp⟩⟩
    · rintro ⟨ha, hforall⟩
      exact ⟨ha, fun s hs => hforall s hs.1 hs.2⟩
  have hsubset : (compareAllPresent nrm bs data).keys_in_all_systems
      ⊆ (compareAllPresent nrm bs data).all_keys := by
    intro k hk
    rw [hinall] at hk
    rw [hall]
    exact ⟨Sys.A, hA, hk.1⟩
  refine ⟨hall, honly, hmissing, hinall, ?_, ?_, hsubset, ?_⟩
  · intro s hs hp
    show (if s ∈ sysOthers ∧ present data s = true
        then some (keysOf nrm bs data Sys.A \ keysOf nrm bs data s) else none) = _
    rw [if_pos ⟨hs, hp⟩]
  · refine ⟨_, rfl, ?_, ?_, ?_⟩
    · show (if 0 < (compareAllPresent nrm bs data).all_keys.card
          then ((compareAllPresent nrm bs data).keys_in_all_systems.card : ℚ)
            / ((compareAllPresent nrm bs data).all_keys.card : ℚ) * 100
          else 0) = _
      rcases Nat.eq_zero_or_pos (compareAllPresent nrm bs data).all_keys.card with h0 | h0
      · rw [if_neg (by omega), if_pos h0]
      · rw [if_pos h0, if_neg (by omega)]
    · show (0 : ℚ) ≤ (if 0 < (compareAllPresent nrm bs data).all_keys.card
          then ((compareAllPresent nrm bs data).keys_in_all_systems.card : ℚ)
            / ((compareAllPresent nrm bs data).all_keys.card : ℚ) * 100
          else 0)
      split
      · positivity
      · exact le_refl 0
    · show (if 0 < (compareAllPresent nrm bs data).all_keys.card
          then ((compareAllPresent nrm bs data).keys_in_all_systems.card : ℚ)
            / ((compareAllPresent nrm bs data).all_keys.card : ℚ) * 100
          else 0) ≤ 100
      split
      · next hpos =>
        have hle : (compareAllPresent nrm bs data).keys_in_all_systems.card
            ≤ (compareAllPresent nrm bs data).all_keys.card :=
          Finset.card_le_card hsubset
        have hb : (0 : ℚ) < ((compareAllPresent nrm bs data).all_keys.card : ℚ) := by
          exact_mod_cast hpos
        have hdiv : ((compareAllPresent nrm bs data).keys_in_all_systems.card : ℚ)
            / ((compareAllPresent nrm bs data).all_keys.card : ℚ) ≤ 1 := by
          rw [div_le_one hb]
          exact_mod_cast hle
        calc ((compareAllPresent nrm bs data).keys_in_all_systems.card : ℚ)
              / ((compareAllPresent nrm bs data).all_keys.card : ℚ) * 100
            ≤ 1 * 100 := by
              have h100 : (0 : ℚ) ≤ 100 := by norm_num
              exact mul_le_mul_of_nonneg_right hdiv h100
          _ = 100 := by norm_num
      · norm_num
  · ext k
    simp only [Finset.mem_inter, Finset.not_mem_empty, iff_false]
    rintro ⟨h1, h2⟩
    rw [honly] at h1
    rw [hmissing] at h2
    exact h2.2 h1.1

/-! ## Persistent state (src/src/database.py)

The four SQLite tables become lists of records.  `CURRENT_TIMESTAMP` becomes
the state's `now` tick; autoincrement primary keys become `nextRunId` /
`nextMasterKeyId` counters. -/

/-- `master_key_registry.status`. -/
inductive MKStatus
  | proposed
  | active
  | deprecated
  deriving DecidableEq, Repr

/-- `reconciliation_runs.status`. -/
inductive RunStatus
  | running
  | completed
  | failed
  deriving DecidableEq, Repr

/-- A `master_key_registry` row. -/
structure MasterKeyRecord where
  master_key_id : Nat
  master_key : Key
  source_system : Sys
  source_key : Key
  status : MKStatus
  provisioning_strategy : List Char
  created_at : Nat
  activated_at : Option Nat
  deprecated_at : Option Nat
  run_id : Nat
  deriving DecidableEq, Repr

/-- A `reconciliation_runs` row (the `config_snapshot` text column carries
no modelled behaviour and is omitted). -/
structure RunRecord where
  run_id : Nat
  run_mode : List Char
  execution_mode : List Char
  status : RunStatus
  stats : Option ComparisonStats
  error_message : Option (List Char)
  checkpoint_data : List (List Char)
  completed_at : Option Nat

/-- A `key_tracking` row. -/
structure TrackingRecord where
  system_name : Sys
  key_value : Key
  normalized_key : Key
  first_seen_at : Nat
  last_seen_at : Nat
  run_id : Nat
  deriving DecidableEq, Repr

/-- An `audit_log` row (columns the core writes). -/
structure AuditEvent where
  run_id : Nat
  event_type : List Char
  event_details : List Char
  result : Option (List Char)

/-- The database state. -/
structure DBState where
  runs : List RunRecord
  registry : List MasterKeyRecord
  tracking : List TrackingRecord
  audit : List AuditEvent
  nextRunId : Nat
  nextMasterKeyId : Nat
  now : Nat

/-- A fresh database. -/
def emptyDB : DBState :=
  { runs := [], registry := [], tracking := [], audit := [],
    nextRunId := 1, nextMasterKeyId := 1, now := 0 }

/-- `Database.start_run`: insert a `running` row, return its id. -/
def startRun (db : DBState) (runMode executionMode : List Char) : Nat × DBState :=
  (db.nextRunId,
    { db with
        runs := db.runs ++
          [{ run_id := db.nextRunId, run_mode := runMode,
             execution_mode := executionMode, status := RunStatus.running,
             stats := none, error_message := none, checkpoint_data := [],
             completed_at := none }]
        nextRunId := db.nextRunId + 1 })

/-- `Database.complete_run`: status is `failed` exactly when an error is
supplied; stats, error message and completion time are stored. -/
def completeRun (db : DBState) (runId : Nat) (stats : Option ComparisonStats)
    (error : Option (List Char)) : DBState :=
  { db with
      runs := db.runs.map fun r =>
        if r.run_id = runId then
          { r with
              status := if error.isSome then RunStatus.failed else RunStatus.completed
              stats := stats
              error_message := error
              completed_at := some db.now }
        else r }

/-- `Database.save_checkpoint`: update the run's checkpoint column. -/
def saveCheckpoint (db : DBState) (runId : Nat) (name : List Char) : DBState :=
  { db with
      runs := db.runs.map fun r =>
        if r.run_id = runId then
          { r with checkpoint_data := r.checkpoint_data ++ [name] }
        else r }

/-- `Database.propose_master_key`: the `UNIQUE` constraint on `master_key`
makes the insert fail (`none`) when any row of any status already holds the
key. -/
def proposeMasterKey (db : DBState) (runId : Nat) (masterKey : Key)
    (sourceSystem : Sys) (sourceKey : Key) (strategy : List Char) :
    Option (Nat × DBState) :=
  if db.registry.any (fun r => r.master_key == masterKey) then none
  else
    some (db.nextMasterKeyId,
      { db with
          registry := db.registry ++
            [{ master_key_id := db.nextMasterKeyId, master_key := masterKey,
               source_system := sourceSystem, source_key := sourceKey,
               status := MKStatus.proposed, provisioning_strategy := strategy,
               created_at := db.now, activated_at := none, deprecated_at := none,
               run_id := runId }]
          nextMasterKeyId := db.nextMasterKeyId + 1 })

/-- `Database.activate_master_keys`: flip the run's `proposed` rows to
`active`, stamping `activated_at`. -/
def activateMasterKeys (db : DBState) (runId : Nat) : DBState :=
  { db with
      registry := db.registry.map fun r =>
        if r.run_id = runId ∧ r.status = MKStatus.proposed then
          { r with status := MKStatus.active, activated_at := some db.now }
        else r }

/-- `Database.track_key`: upsert on `(system_name, normalized_key)`,
refreshing `last_seen_at` and the owning run on conflict. -/
def trackKey (db : DBState) (runId : Nat) (systemName : Sys) (keyValue : Key)
    (normalizedKey : Key) : DBState :=
  if db.tracking.any (fun t =>
      decide (t.system_name = systemName ∧ t.normalized_key = normalizedKey)) then
    { db with
        tracking := db.tracking.map fun t =>
          if t.system_name = systemName ∧ t.normalized_key = normalizedKey then
            { t with last_seen_at := db.now, run_id := runId }
          else t }
  else
    { db with
        tracking := db.tracking ++
          [{ system_name := systemName, key_value := keyValue,
             normalized_key := normalizedKey, first_seen_at := db.now,
             last_seen_at := db.now, run_id := runId }] }

/-- `Database.log_event`. -/
def logEvent (db : DBState) (runId : Nat) (eventType eventDetails : List Char)
    (result : Option (List Char)) : DBState :=
  { db with
      audit := db.audit ++
        [{ run_id := runId, event_type := eventType,
           event_details := eventDetails, result := result }] }

/-- Status of a run row (`None` when no such run exists). -/
def runStatus (db : DBState) (runId : Nat) : Option RunStatus :=
  (db.runs.find? (fun r => r.run_id == runId)).map (·.status)

/-- Error message column of a run row. -/
def runError (db : DBState) (runId : Nat) : Option (Option (List Char)) :=
  (db.runs.find? (fun r => r.run_id == runId)).map (·.error_message)

/-- Whether a run row's stored statistics are empty. -/
def runStatsEmpty (db : DBState) (runId : Nat) : Option Bool :=
  (db.runs.find? (fun r => r.run_id == runId)).map (fun r => r.stats.isNone)

/-! ## Master-key provisioning (src/src/provisioner.py) -/

/-- The provisioning configuration (defaults from `_get_default_config`). -/
structure ProvisionConfig where
  strategy : List Char
  auto_approve : Bool
  namespace_prefix : List Char
  deriving DecidableEq, Repr

/-- The provisioner's default configuration. -/
def defaultProvisionConfig : ProvisionConfig :=
  { strategy := "mirror".toList, auto_approve := false,
    namespace_prefix := "MASTER".toList }

/-- System names as written in the data files. -/
def sysName : Sys → List Char
  | Sys.A => ['A']
  | Sys.B => ['B']
  | Sys.C => ['C']
  | Sys.D => ['D']
  | Sys.E => ['E']

/-- `Provisioner.generate_master_key`: `mirror` uses the normalized key,
`namespaced` prefixes it with `{prefix}-{source_system}-`, anything else
falls back to `mirror` (with a warning). -/
def generateMasterKey (cfg : ProvisionConfig) (sourceSystem : Sys)
    (normalizedKey : Key) : Key :=
  if cfg.strategy = "mirror".toList then normalizedKey
  else if cfg.strategy = "namespaced".toList then
    cfg.namespace_prefix ++ '-' :: sysName sourceSystem ++ '-' :: normalizedKey
  else normalizedKey

/-- One record of the list `propose_master_keys` returns. -/
structure ProposedKey where
  master_key_id : Nat
  master_key : Key
  source_system : Sys
  source_key : Key
  normalized_key : Key
  affected_systems : List Sys
  deriving DecidableEq, Repr

/-- `Provisioner.propose_master_keys` (lines 54-116): per out-of-authority
normalized key, skip when a `proposed`/`active` registry row already has
that exact value as its *master key*; otherwise take the first
`(system, raw key)` pair as source, generate the master key by strategy and
insert it (a unique-constraint failure is caught and skipped).  An entry
with no source pairs is unreachable from `analyze_discrepancies`, which
only emits nonempty lists; the model skips it. -/
def proposeMasterKeys (cfg : ProvisionConfig) (runId : Nat)
    (outOfAuthorityKeys : List (Key × List (Sys × Key))) (db : DBState) :
    List ProposedKey × DBState :=
  outOfAuthorityKeys.foldl
    (fun acc entry =>
      let existingNormalized :=
        (acc.2.registry.filter
          (fun r => decide (r.status = MKStatus.proposed ∨ r.status = MKStatus.active))).map
          (·.master_key)
      if entry.1 ∈ existingNormalized then acc
      else
        match entry.2 with
        | [] => acc
        | (sourceSystem, sourceKey) :: _ =>
          let masterKey := generateMasterKey cfg sourceSystem entry.1
          match proposeMasterKey acc.2 runId masterKey sourceSystem sourceKey cfg.strategy with
          | some (masterKeyId, db') =>
            (acc.1 ++
              [{ master_key_id := masterKeyId, master_key := masterKey,
                 source_system := sourceSystem, source_key := sourceKey,
                 normalized_key := entry.1,
                 affected_systems := entry.2.map Prod.fst }], db')
          | none => acc)
    ([], db)

/-- `Provisioner.activate_proposed_keys` (lines 118-150): resolve the
auto-approve override against the configuration; when disabled, do nothing
and report zero; otherwise activate the run's proposed keys and count the
run's active rows. -/
def activateProposedKeys (cfg : ProvisionConfig) (runId : Nat)
    (autoApprove : Option Bool) (db : DBState) : Nat × DBState :=
  let aa := autoApprove.getD cfg.auto_approve
  if aa then
    let db' := activateMasterKeys db runId
    ((db'.registry.filter
        (fun r => decide (r.run_id = runId ∧ r.status = MKStatus.active))).length, db')
  else (0, db)

/-! ## Orchestration (src/src/reconciler.py, src/src/keysync.py) -/

/-- The discrepancy analysis result (`Reconciler.analyze_discrepancies`). -/
structure Discrepancies where
  out_of_authority_keys : List (Key × List (Sys × Key))
  propagation_gaps : List (Sys × List Key)
  duplicate_keys : List (Sys × List (Key × List Key))

/-- A kernel-computable enumeration of a finite key set, in sorted order
(the source iterates a Python `set`, whose order is unspecified; the model
fixes one). -/
def finsetKeyList (s : Finset Key) : List Key :=
  Quot.liftOn s.val (fun l => l.insertionSort (· ≤ ·)) (by
    intro a b hab
    have hab' : List.Perm a b := hab
    have hp : List.Perm (a.insertionSort (· ≤ ·)) (b.insertionSort (· ≤ ·)) :=
      ((a.perm_insertionSort (· ≤ ·)).trans hab').trans
        (b.perm_insertionSort (· ≤ ·)).symm
    exact List.eq_of_perm_of_sorted hp
      (List.sorted_insertionSort _ a) (List.sorted_insertionSort _ b))

/-- `Reconciler.analyze_discrepancies` (lines 153-206): out-of-authority
keys gather, for each key missing in A, the `(system, raw key)` pairs of
the non-A systems holding it (kept only when nonempty); propagation gaps
keep the nonempty per-system gap sets; duplicate keys copy the recorded
duplicate groups.  (Set/dict iteration order in the source is unspecified;
the model fixes one.) -/
def analyzeDiscrepancies (comp : ComparisonResult) : Discrepancies :=
  { out_of_authority_keys :=
      (finsetKeyList comp.keys_missing_in_a).filterMap fun k =>
        let pairs := (sysAll.filter (fun s => s ≠ Sys.A)).flatMap fun s =>
          match comp.system_keys s with
          | some m => (getVal m k).map (fun o => (s, o))
          | none => []
        if pairs = [] then none else some (k, pairs)
    propagation_gaps :=
      sysAll.filterMap fun s =>
        match comp.system_specific_gaps s with
        | some g => if g ≠ ∅ then some (s, finsetKeyList g) else none
        | none => none
    duplicate_keys :=
      sysAll.filterMap fun s =>
        match comp.statistics with
        | some st =>
          match st.duplicates s with
          | some d => some (s, d)
          | none => none
        | none => none }

/-- `Reconciler.track_keys` (lines 208-222): upsert a tracking row for every
raw key of every loaded system. -/
def trackKeys (db : DBState) (runId : Nat) (comp : ComparisonResult) : DBState :=
  sysAll.foldl
    (fun db s =>
      match comp.system_keys s with
      | some m =>
        m.foldl
          (fun db p => p.2.foldl (fun db o => trackKey db runId s o p.1) db)
          db
      | none => db)
    db

/-- The configuration slice the orchestration reads. -/
structure ReconConfig where
  mode : List Char
  execution_mode : List Char
  deriving DecidableEq, Repr

/-- The results dict of `Reconciler.perform_reconciliation`. -/
structure ReconResults where
  comparison : ComparisonResult
  discrepancies : Discrepancies
  provisioning : Option (List ProposedKey)

/-- `Reconciler.perform_reconciliation` (lines 78-151): checkpoint the
comparison, analyze discrepancies, checkpoint, track keys, provision (and
auto-activate under the auto-approve execution mode) when out-of-authority
keys exist, log completion — or, when a step raises (modelled by an `error`
outcome of the comparison stage), log a `reconciliation_failed` audit event
and re-raise; the run row is not touched on either path.  (The incremental
branch computes a placeholder of empty sets and writes nothing; it is
omitted.) -/
def performReconciliation (rcfg : ReconConfig) (pcfg : ProvisionConfig)
    (runId : Nat) (outcome : Except (List Char) ComparisonResult)
    (db : DBState) : Except (List Char) ReconResults × DBState :=
  match outcome with
  | Except.error e =>
    (Except.error e,
      logEvent db runId "reconciliation_failed".toList e (some "failure".toList))
  | Except.ok comp =>
    let db1 := saveCheckpoint db runId "comparison_complete".toList
    let disc := analyzeDiscrepancies comp
    let db2 := saveCheckpoint db1 runId "discrepancy_analysis_complete".toList
    let db3 := trackKeys db2 runId comp
    let provDb : Option (List ProposedKey) × DBState :=
      if disc.out_of_authority_keys ≠ [] then
        let proposed := proposeMasterKeys pcfg runId disc.out_of_authority_keys db3
        let db' :=
          if rcfg.execution_mode = "auto-approve".toList then
            (activateProposedKeys pcfg runId (some true) proposed.2).2
          else proposed.2
        (some proposed.1, db')
      else (none, db3)
    let db5 := logEvent provDb.2 runId "reconciliation_complete".toList
      "Reconciliation completed successfully".toList (some "success".toList)
    (Except.ok { comparison := comp, discrepancies := disc, provisioning := provDb.1 }, db5)

/-- Modelled from the spec: the shared runner `run_reconciliation` is
imported from `src.keysync` by sandbox.py, webapp/app.py and
tests/test_keysync_frontend.py but absent from src/src/keysync.py; §4.5
step (7) specifies it: complete the run with the comparison statistics, or,
on any unhandled failure in steps 2-6, mark the run `Failed` with the
captured error and propagate it to the caller.  The success path mirrors
the present `main` (start run, log start, perform, complete with the
comparison statistics); only the failure-marking branch is taken from the
spec's words. -/
def runReconciliation (rcfg : ReconConfig) (pcfg : ProvisionConfig)
    (outcome : Except (List Char) ComparisonResult) (db0 : DBState) :
    Except (List Char) ReconResults × Nat × DBState :=
  let started := startRun db0 rcfg.mode rcfg.execution_mode
  let runId := started.1
  let db1 := logEvent started.2 runId "run_started".toList
    "Reconciliation started".toList none
  let perf := performReconciliation rcfg pcfg runId outcome db1
  match perf.1 with
  | Except.ok res =>
    (Except.ok res, runId, completeRun perf.2 runId res.comparison.statistics none)
  | Except.error e =>
    (Except.error e, runId, completeRun perf.2 runId none (some e))

/-! ## Claim C9 — activation effect and frame -/

theorem forall₂_map_self {α β : Type} (f : α → β) (P : α → β → Prop)
    (h : ∀ x, P x (f x)) : ∀ l : List α, List.Forall₂ P l (l.map f) := by
  intro l
  induction l with
  | nil => exact List.Forall₂.nil
  | cons x xs ih => exact List.Forall₂.cons (h x) ih

/-- Claim C9: with auto-approve true, `activate_proposed_keys` turns every
registry row of the given run with status `proposed` into `active` with
`activated_at` stamped, and leaves every other registry row — other runs,
other statuses — and every other table unchanged; with auto-approve
resolved false it is a no-op returning zero. -/
theorem c9_activation_effect_and_frame :
    (∀ (cfg : ProvisionConfig) (rid : Nat) (db : DBState),
        (activateProposedKeys cfg rid (some true) db).2.runs = db.runs
          ∧ (activateProposedKeys cfg rid (some true) db).2.tracking = db.tracking
          ∧ (activateProposedKeys cfg rid (some true) db).2.audit = db.audit
          ∧ List.Forall₂
              (fun r r' =>
                (r.run_id = rid ∧ r.status = MKStatus.proposed →
                  r' = { r with
                           status := MKStatus.active
                           activated_at := some db.now })
                  ∧ (¬(r.run_id = rid ∧ r.status = MKStatus.proposed) → r' = r))
              db.registry (activateProposedKeys cfg rid (some true) db).2.registry)
      ∧ (∀ (cfg : ProvisionConfig) (rid : Nat) (auto : Option Bool) (db : DBState),
          auto.getD cfg.auto_approve = false →
            activateProposedKeys cfg rid auto db = (0, db)) := by
  constructor
  · intro cfg rid db
    refine ⟨rfl, rfl, rfl, ?_⟩
    show List.Forall₂ _ db.registry (activateMasterKeys db rid).registry
    refine forall₂_map_self _ _ ?_ db.registry
    intro r
    constructor
    · intro hc
      rw [if_pos hc]
    · intro hc
      rw [if_neg hc]
  · intro cfg rid auto db h
    simp [activateProposedKeys, h]

/-- Witness for C9's no-op branch: the default configuration with no
override leaves a concrete database untouched. -/
theorem c9_activation_witness :
    (none : Option Bool).getD defaultProvisionConfig.auto_approve = false
      ∧ activateProposedKeys defaultProvisionConfig 1 none emptyDB = (0, emptyDB) :=
  ⟨by decide,
    c9_activation_effect_and_frame.2 defaultProvisionConfig 1 none emptyDB (by decide)⟩

/-! ## Claim C2 — master-key deduplication -/

/-- A namespaced provisioning configuration with the default prefix. -/
def namespacedConfig : ProvisionConfig :=
  { strategy := "namespaced".toList, auto_approve := false,
    namespace_prefix := "MASTER".toList }

/-- Counterexample to claim C2 as stated: under the `namespaced` strategy
the dedup check compares the normalized key against existing *master keys*
(`MASTER-{sys}-{key}`), which never match it, so proposing the same
normalized key `K1` in two successive runs from different source systems
inserts two proposed registry rows instead of one. -/
theorem c2_namespaced_double_proposal :
    ((proposeMasterKeys namespacedConfig 2 [("K1".toList, [(Sys.C, "k1".toList)])]
        (proposeMasterKeys namespacedConfig 1 [("K1".toList, [(Sys.B, "k1".toList)])]
          emptyDB).2).2.registry.filter
      (fun r => decide (r.status = MKStatus.proposed ∨ r.status = MKStatus.active))).length = 2
    ∧ (proposeMasterKeys namespacedConfig 2 [("K1".toList, [(Sys.C, "k1".toList)])]
        (proposeMasterKeys namespacedConfig 1 [("K1".toList, [(Sys.B, "k1".toList)])]
          emptyDB).2).2.registry.map (·.master_key)
      = ["MASTER-B-K1".toList, "MASTER-C-K1".toList] := by
  refine ⟨by decide, by decide⟩

/-- Claim C2 (amended): the dedup check skips an out-of-authority
normalized key exactly when a `proposed`/`active` registry row already has
that value as its *master key*; consequently, under the `mirror` strategy
(where the master key is the normalized key itself) proposing the same
normalized key in two successive runs yields exactly one proposed/active
registry row, the second attempt being skipped with no state change —
regardless of the runs' source systems.  Under the `namespaced` strategy
this fails (`c2_namespaced_double_proposal`). -/
theorem c2_mirror_dedup_two_runs (cfg : ProvisionConfig)
    (hstrat : cfg.strategy = "mirror".toList) (db : DBState) (nk : Key)
    (hfresh : ∀ r ∈ db.registry, r.master_key ≠ nk)
    (rid1 rid2 : Nat) (pairs1 pairs2 : List (Sys × Key))
    (h1 : pairs1 ≠ []) (h2 : pairs2 ≠ []) :
    proposeMasterKeys cfg rid2 [(nk, pairs2)]
        (proposeMasterKeys cfg rid1 [(nk, pairs1)] db).2
      = ([], (proposeMasterKeys cfg rid1 [(nk, pairs1)] db).2)
    ∧ (proposeMasterKeys cfg rid1 [(nk, pairs1)] db).1.map (·.master_key) = [nk]
    ∧ ((proposeMasterKeys cfg rid1 [(nk, pairs1)] db).2.registry.filter
        (fun r => decide (r.master_key = nk
          ∧ (r.status = MKStatus.proposed ∨ r.status = MKStatus.active)))).length = 1 := by
  obtain ⟨⟨s1, k1⟩, rest1, rfl⟩ := List.exists_cons_of_ne_nil h1
  have hnotin : nk ∉ ((db.registry.filter
      (fun r => decide (r.status = MKStatus.proposed ∨ r.status = MKStatus.active))).map
        (·.master_key)) := by
    intro hmem
    rcases List.mem_map.mp hmem with ⟨r, hr, hrk⟩
    exact hfresh r (List.mem_of_mem_filter hr) hrk
  have hany : ¬(db.registry.any (fun r => r.master_key == nk) = true) := by
    intro hmem
    rcases List.any_eq_true.mp hmem with ⟨r, hr, hrk⟩
    exact hfresh r hr (by simpa using hrk)
  have hmk : generateMasterKey cfg s1 nk = nk := by
    rw [generateMasterKey, if_pos hstrat]
  have hstep1 : proposeMasterKeys cfg rid1 [(nk, (s1, k1) :: rest1)] db
      = ([{ master_key_id := db.nextMasterKeyId, master_key := nk,
            source_system := s1, source_key := k1, normalized_key := nk,
            affected_systems := s1 :: rest1.map Prod.fst }],
         { db with
             registry := db.registry ++
               [{ master_key_id := db.nextMasterKeyId, master_key := nk,
                  source_system := s1, source_key := k1,
                  status := MKStatus.proposed,
                  provisioning_strategy := cfg.strategy,
                  created_at := db.now, activated_at := none,
                  deprecated_at := none, run_id := rid1 }]
             nextMasterKeyId := db.nextMasterKeyId + 1 }) := by
    simp only [proposeMasterKeys, List.foldl_cons, List.foldl_nil]
    rw [if_neg hnotin]
    simp only [hmk, proposeMasterKey]
    rw [if_neg hany]
    simp
  rw [hstep1]
  refine ⟨?_, by simp, ?_⟩
  · simp only [proposeMasterKeys, List.foldl_cons, List.foldl_nil]
    rw [if_pos ?_]
    refine List.mem_map.mpr ⟨_, List.mem_filter.mpr ⟨List.mem_append_right _
      (List.mem_singleton_self _), by simp⟩, rfl⟩
  · rw [List.filter_append]
    have hfd : db.registry.filter
        (fun r => decide (r.master_key = nk
          ∧ (r.status = MKStatus.proposed ∨ r.status = MKStatus.active))) = [] := by
      rw [List.filter_eq_nil_iff]
      intro r hr
      simp only [decide_eq_true_eq, not_and]
      intro hrk
      exact absurd hrk (hfresh r hr)
    rw [hfd]
    simp

/-- Witness for the amended C2 theorem on a fresh database. -/
theorem c2_mirror_dedup_witness :
    (defaultProvisionConfig.strategy = "mirror".toList
        ∧ (∀ r ∈ emptyDB.registry, r.master_key ≠ "K1".toList)
        ∧ ([(Sys.B, "k1".toList)] : List (Sys × Key)) ≠ []
        ∧ ([(Sys.C, "k2".toList)] : List (Sys × Key)) ≠ [])
      ∧ ((proposeMasterKeys defaultProvisionConfig 1
            [("K1".toList, [(Sys.B, "k1".toList)])] emptyDB).2.registry.filter
          (fun r => decide (r.master_key = "K1".toList
            ∧ (r.status = MKStatus.proposed ∨ r.status = MKStatus.active)))).length = 1 :=
  ⟨⟨rfl, by simp [emptyDB], by simp, by simp⟩,
    (c2_mirror_dedup_two_runs defaultProvisionConfig rfl emptyDB "K1".toList
      (by simp [emptyDB]) 1 2 [(Sys.B, "k1".toList)] [(Sys.C, "k2".toList)]
      (by simp) (by simp)).2.2⟩

/-! ### Run-row bookkeeping lemmas -/

/-- `find?` commutes with a map that preserves the run id. -/
theorem find?_map_comm (runs : List RunRecord) (f : RunRecord → RunRecord)
    (hid : ∀ r, (f r).run_id = r.run_id) (rid : Nat) :
    (runs.map f).find? (fun r => r.run_id == rid)
      = (runs.find? (fun r => r.run_id == rid)).map f := by
  induction runs with
  | nil => rfl
  | cons r rs ih =>
    simp only [List.map_cons, List.find?_cons]
    rw [hid r]
    split
    · rfl
    · exact ih

theorem runStatus_saveCheckpoint (db : DBState) (rid rid' : Nat) (name : List Char) :
    runStatus (saveCheckpoint db rid' name) rid = runStatus db rid := by
  unfold runStatus saveCheckpoint
  rw [find?_map_comm _ _ (fun r => by split <;> rfl) rid]
  cases db.runs.find? (fun r => r.run_id == rid) with
  | none => rfl
  | some r =>
    simp only [Option.map_some']
    congr 1
    split <;> rfl

theorem runs_trackKey (db : DBState) (rid : Nat) (s : Sys) (o nk : Key) :
    (trackKey db rid s o nk).runs = db.runs := by
  unfold trackKey
  split <;> rfl

theorem runs_foldl_preserved {α : Type} (f : DBState → α → DBState)
    (hf : ∀ db x, (f db x).runs = db.runs) :
    ∀ (l : List α) (db : DBState), (l.foldl f db).runs = db.runs := by
  intro l
  induction l with
  | nil => intro db; rfl
  | cons x xs ih =>
    intro db
    rw [List.foldl_cons, ih, hf]

theorem runs_foldl_pair_preserved {α β : Type} (f : β × DBState → α → β × DBState)
    (hf : ∀ acc x, (f acc x).2.runs = acc.2.runs) :
    ∀ (l : List α) (acc : β × DBState), (l.foldl f acc).2.runs = acc.2.runs := by
  intro l
  induction l with
  | nil => intro acc; rfl
  | cons x xs ih =>
    intro acc
    rw [List.foldl_cons, ih, hf]

theorem runs_trackKeys (db : DBState) (rid : Nat) (comp : ComparisonResult) :
    (trackKeys db rid comp).runs = db.runs := by
  unfold trackKeys
  refine runs_foldl_preserved _ ?_ sysAll db
  intro db s
  cases comp.system_keys s with
  | none => rfl
  | some m =>
    simp only
    refine runs_foldl_preserved _ ?_ m db
    intro db p
    exact runs_foldl_preserved _ (fun db o => runs_trackKey db rid s o p.1) p.2 db

theorem runs_proposeMasterKeys (cfg : ProvisionConfig) (rid : Nat)
    (ooa : List (Key × List (Sys × Key))) (db : DBState) :
    (proposeMasterKeys cfg rid ooa db).2.runs = db.runs := by
  unfold proposeMasterKeys
  refine runs_foldl_pair_preserved _ ?_ ooa ([], db)
  intro acc entry
  dsimp only
  split
  · rfl
  · split
    · rfl
    · next sourceSystem sourceKey rest heq =>
      cases hpk : proposeMasterKey acc.2 rid
          (generateMasterKey cfg sourceSystem entry.1) sourceSystem sourceKey
          cfg.strategy with
      | none => rfl
      | some v =>
        obtain ⟨mid, db'⟩ := v
        simp only
        unfold proposeMasterKey at hpk
        split at hpk
        · cases hpk
        · have h := Option.some.inj hpk
          injection h with h1 h2
          rw [← h2]

theorem runs_logEvent (db : DBState) (rid : Nat) (t d : List Char)
    (res : Option (List Char)) : (logEvent db rid t d res).runs = db.runs := rfl

theorem runs_activateProposedKeys (cfg : ProvisionConfig) (rid : Nat)
    (auto : Option Bool) (db : DBState) :
    (activateProposedKeys cfg rid auto db).2.runs = db.runs := by
  simp only [activateProposedKeys]
  split <;> rfl

/-- `save_checkpoint` changes only the checkpoint column: the status and
error message seen through `find?` are untouched. -/
theorem findProj_saveCheckpoint (db : DBState) (rid' : Nat) (name : List Char)
    (rid : Nat) :
    ((saveCheckpoint db rid' name).runs.find? (fun r => r.run_id == rid)).map
        (fun r => (r.status, r.error_message))
      = (db.runs.find? (fun r => r.run_id == rid)).map
          (fun r => (r.status, r.error_message)) := by
  unfold saveCheckpoint
  rw [find?_map_comm _ _ (fun r => by split <;> rfl) rid]
  cases db.runs.find? (fun r => r.run_id == rid) with
  | none => rfl
  | some r =>
    simp only [Option.map_some']
    congr 1
    split <;> rfl

/-- `perform_reconciliation` never touches a run row's status or error
message (it only checkpoints, tracks, provisions and logs). -/
theorem findProj_performReconciliation (rcfg : ReconConfig) (pcfg : ProvisionConfig)
    (rid' : Nat) (outcome : Except (List Char) ComparisonResult) (db : DBState)
    (rid : Nat) :
    ((performReconciliation rcfg pcfg rid' outcome db).2.runs.find?
        (fun r => r.run_id == rid)).map (fun r => (r.status, r.error_message))
      = (db.runs.find? (fun r => r.run_id == rid)).map
          (fun r => (r.status, r.error_message)) := by
  cases outcome with
  | error e => rfl
  | ok comp =>
    simp only [performReconciliation]
    rw [runs_logEvent]
    split
    · simp only
      split
      · rw [runs_activateProposedKeys, runs_proposeMasterKeys, runs_trackKeys,
          findProj_saveCheckpoint, findProj_saveCheckpoint]
      · rw [runs_proposeMasterKeys, runs_trackKeys,
          findProj_saveCheckpoint, findProj_saveCheckpoint]
    · rw [runs_trackKeys, findProj_saveCheckpoint, findProj_saveCheckpoint]

/-- `complete_run` on a present run: the stored status is `failed` exactly
when an error is supplied, and the stored error/stats are those supplied. -/
theorem completeRun_status_error (db : DBState) (rid : Nat)
    (stats : Option ComparisonStats) (err : Option (List Char))
    (h : (db.runs.find? (fun r => r.run_id == rid)).isSome = true) :
    runStatus (completeRun db rid stats err) rid
        = some (if err.isSome then RunStatus.failed else RunStatus.completed)
      ∧ runError (completeRun db rid stats err) rid = some err
      ∧ runStatsEmpty (completeRun db rid stats err) rid = some stats.isNone := by
  obtain ⟨r, hr⟩ := Option.isSome_iff_exists.mp h
  have hrid : r.run_id = rid := by
    have hpr := List.find?_some hr
    simpa using hpr
  have hcomm : (completeRun db rid stats err).runs.find? (fun r => r.run_id == rid)
      = some (if r.run_id = rid then
          { r with
              status := if err.isSome then RunStatus.failed else RunStatus.completed
              stats := stats
              error_message := err
              completed_at := some db.now }
        else r) := by
    unfold completeRun
    rw [find?_map_comm _ _ (fun r => by split <;> rfl) rid, hr]
    rfl
  refine ⟨?_, ?_, ?_⟩
  · unfold runStatus
    rw [hcomm, if_pos hrid]
    rfl
  · unfold runError
    rw [hcomm, if_pos hrid]
    rfl
  · unfold runStatsEmpty
    rw [hcomm, if_pos hrid]
    rfl

/-- The run row inserted by `start_run` is found under its fresh id. -/
theorem startRun_found (db0 : DBState) (m e : List Char)
    (hwf : ∀ r ∈ db0.runs, r.run_id < db0.nextRunId) :
    (startRun db0 m e).2.runs.find? (fun r => r.run_id == db0.nextRunId)
      = some { run_id := db0.nextRunId, run_mode := m, execution_mode := e,
               status := RunStatus.running, stats := none, error_message := none,
               checkpoint_data := [], completed_at := none } := by
  unfold startRun
  rw [List.find?_append]
  have h1 : db0.runs.find? (fun r => r.run_id == db0.nextRunId) = none := by
    rw [List.find?_eq_none]
    intro r hr
    have := hwf r hr
    simp only [beq_iff_eq]
    omega
  rw [h1]
  simp

/-! ## Claim C1 — run lifecycle -/

/-- Claim C1 (the runner `run_reconciliation` is modelled from the spec,
see `runReconciliation`): a run is created with status `running`; the run
then transitions to exactly one of `completed`/`failed` — `completed` with
no error message when the orchestration succeeds, `failed` with the
captured error message when an unhandled failure occurs in steps 2-6
(modelled as an `error` outcome of the comparison stage), and in the
latter case the error still propagates to the caller. -/
theorem c1_run_lifecycle (rcfg : ReconConfig) (pcfg : ProvisionConfig)
    (db0 : DBState) (hwf : ∀ r ∈ db0.runs, r.run_id < db0.nextRunId) :
    runStatus (startRun db0 rcfg.mode rcfg.execution_mode).2
        (startRun db0 rcfg.mode rcfg.execution_mode).1 = some RunStatus.running
      ∧ (∀ comp,
          runStatus (runReconciliation rcfg pcfg (Except.ok comp) db0).2.2
              (runReconciliation rcfg pcfg (Except.ok comp) db0).2.1
            = some RunStatus.completed
          ∧ runError (runReconciliation rcfg pcfg (Except.ok comp) db0).2.2
              (runReconciliation rcfg pcfg (Except.ok comp) db0).2.1 = some none)
      ∧ (∀ e,
          runStatus (runReconciliation rcfg pcfg (Except.error e) db0).2.2
              (runReconciliation rcfg pcfg (Except.error e) db0).2.1
            = some RunStatus.failed
          ∧ runError (runReconciliation rcfg pcfg (Except.error e) db0).2.2
              (runReconciliation rcfg pcfg (Except.error e) db0).2.1
            = some (some e)
          ∧ (runReconciliation rcfg pcfg (Except.error e) db0).1
            = Except.error e) := by
  have hfound := startRun_found db0 rcfg.mode rcfg.execution_mode hwf
  have hsome : ∀ outcome,
      ((performReconciliation rcfg pcfg db0.nextRunId outcome
        (logEvent (startRun db0 rcfg.mode rcfg.execution_mode).2 db0.nextRunId
          "run_started".toList "Reconciliation started".toList
          none)).2.runs.find? (fun r => r.run_id == db0.nextRunId)).isSome
        = true := by
    intro outcome
    have h1 := congrArg Option.isSome
      (findProj_performReconciliation rcfg pcfg db0.nextRunId outcome
        (logEvent (startRun db0 rcfg.mode rcfg.execution_mode).2 db0.nextRunId
          "run_started".toList "Reconciliation started".toList none)
        db0.nextRunId)
    rw [Option.isSome_map', Option.isSome_map'] at h1
    rw [h1]
    show ((startRun db0 rcfg.mode rcfg.execution_mode).2.runs.find?
      (fun r => r.run_id == db0.nextRunId)).isSome = true
    rw [hfound]
    rfl
  refine ⟨?_, ?_, ?_⟩
  · show ((startRun db0 rcfg.mode rcfg.execution_mode).2.runs.find?
        (fun r => r.run_id == db0.nextRunId)).map (·.status)
      = some RunStatus.running
    rw [hfound]
    rfl
  · intro comp
    obtain ⟨hst, herr, -⟩ := completeRun_status_error
      (performReconciliation rcfg pcfg db0.nextRunId (Except.ok comp)
        (logEvent (startRun db0 rcfg.mode rcfg.execution_mode).2 db0.nextRunId
          "run_started".toList "Reconciliation started".toList none)).2
      db0.nextRunId comp.statistics none (hsome (Except.ok comp))
    exact ⟨hst, herr⟩
  · intro e
    obtain ⟨hst, herr, -⟩ := completeRun_status_error
      (performReconciliation rcfg pcfg db0.nextRunId (Except.error e)
        (logEvent (startRun db0 rcfg.mode rcfg.execution_mode).2 db0.nextRunId
          "run_started".toList "Reconciliation started".toList none)).2
      db0.nextRunId none (some e) (hsome (Except.error e))
    exact ⟨hst, herr, rfl⟩

/-- Witness for C1 on a fresh database: a failing comparison leaves the run
`failed` with the captured message, and the error propagates. -/
theorem c1_run_lifecycle_witness :
    (∀ r ∈ emptyDB.runs, r.run_id < emptyDB.nextRunId)
      ∧ runStatus (runReconciliation ⟨"full".toList, "normal".toList⟩
            defaultProvisionConfig (Except.error "boom".toList) emptyDB).2.2
          (runReconciliation ⟨"full".toList, "normal".toList⟩
            defaultProvisionConfig (Except.error "boom".toList) emptyDB).2.1
        = some RunStatus.failed
      ∧ (runReconciliation ⟨"full".toList, "normal".toList⟩
            defaultProvisionConfig (Except.error "boom".toList) emptyDB).1
        = Except.error "boom".toList :=
  ⟨by simp [emptyDB],
    ((c1_run_lifecycle ⟨"full".toList, "normal".toList⟩ defaultProvisionConfig
      emptyDB (by simp [emptyDB])).2.2 "boom".toList).1,
    ((c1_run_lifecycle ⟨"full".toList, "normal".toList⟩ defaultProvisionConfig
      emptyDB (by simp [emptyDB])).2.2 "boom".toList).2.2⟩

/-- Concrete comparison input for the C6 witness: the spec's worked example
`A = {K1,K2,K3}`, `B = {K1,K2,K4}`. -/
def c6WitnessData : Sys → Option (List Key)
  | Sys.A => some ["K1".toList, "K2".toList, "K3".toList]
  | Sys.B => some ["K1".toList, "K2".toList, "K4".toList]
  | _ => none

/-- Witness for C6 at the spec's worked example. -/
theorem c6_set_algebra_witness :
    present c6WitnessData Sys.A = true
      ∧ (compareAll defaultNormalizer 1000 c6WitnessData).keys_only_in_a
          ∩ (compareAll defaultNormalizer 1000 c6WitnessData).keys_missing_in_a = ∅ :=
  ⟨by decide,
    (c6_comparison_set_algebra defaultNormalizer 1000 c6WitnessData
      (by decide)).2.2.2.2.2.2.2⟩

/-! ## Claim C8 — comparison without system A -/

/-- Concrete input with system A absent and system B loaded. -/
def c8Data : Sys → Option (List Key)
  | Sys.B => some ["K1".toList]
  | _ => none

/-- Counterexample to claim C8 as stated: with system A absent the
comparator does return the empty result, but no caller treats this as a
hard failure — the orchestration proceeds and the run completes with status
`completed` and empty statistics, and the result propagates as a success. -/
theorem c8_missing_a_run_completes_counterexample :
    (compareAll defaultNormalizer 1000 c8Data).statistics.isNone = true
      ∧ runStatus (runReconciliation ⟨"full".toList, "normal".toList⟩
            defaultProvisionConfig
            (Except.ok (compareAll defaultNormalizer 1000 c8Data)) emptyDB).2.2
          (runReconciliation ⟨"full".toList, "normal".toList⟩
            defaultProvisionConfig
            (Except.ok (compareAll defaultNormalizer 1000 c8Data)) emptyDB).2.1
        = some RunStatus.completed
      ∧ runStatsEmpty (runReconciliation ⟨"full".toList, "normal".toList⟩
            defaultProvisionConfig
            (Except.ok (compareAll defaultNormalizer 1000 c8Data)) emptyDB).2.2
          (runReconciliation ⟨"full".toList, "normal".toList⟩
            defaultProvisionConfig
            (Except.ok (compareAll defaultNormalizer 1000 c8Data)) emptyDB).2.1
        = some true := by
  refine ⟨by decide, by decide, by decide⟩

/-- Claim C8 (amended): when system A's data is absent,
`compare_all_systems` returns a result whose comparison fields are all
empty and whose statistics are empty, performing no set algebra; but the
caller does *not* treat this as a hard failure — the reconciliation
proceeds, the run is completed with status `completed` and empty stored
statistics, and the result propagates as a success. -/
theorem c8_missing_a_empty_result_run_completes (nrm : Normalizer) (bs : Nat)
    (data : Sys → Option (List Key)) (hA : data Sys.A = none)
    (rcfg : ReconConfig) (pcfg : ProvisionConfig) (db0 : DBState)
    (hwf : ∀ r ∈ db0.runs, r.run_id < db0.nextRunId) :
    (compareAll nrm bs data).keys_only_in_a = ∅
      ∧ (compareAll nrm bs data).keys_missing_in_a = ∅
      ∧ (compareAll nrm bs data).keys_in_all_systems = ∅
      ∧ (∀ s, (compareAll nrm bs data).system_specific_gaps s = none)
      ∧ (compareAll nrm bs data).statistics = none
      ∧ runStatus (runReconciliation rcfg pcfg
            (Except.ok (compareAll nrm bs data)) db0).2.2
          (runReconciliation rcfg pcfg
            (Except.ok (compareAll nrm bs data)) db0).2.1
        = some RunStatus.completed
      ∧ runStatsEmpty (runReconciliation rcfg pcfg
            (Except.ok (compareAll nrm bs data)) db0).2.2
          (runReconciliation rcfg pcfg
            (Except.ok (compareAll nrm bs data)) db0).2.1 = some true
      ∧ (∃ res, (runReconciliation rcfg pcfg
            (Except.ok (compareAll nrm bs data)) db0).1 = Except.ok res) := by
  have hp : ¬(present data Sys.A = true) := by simp [present, hA]
  have hc : compareAll nrm bs data =
      { system_keys := fun s => (data s).map (loadAndNormalizeSystem nrm bs)
        all_keys := ∅
        keys_only_in_a := ∅
        keys_missing_in_a := ∅
        keys_in_all_systems := ∅
        system_specific_gaps := fun _ => none
        statistics := none } := by
    rw [compareAll, if_neg hp]
  have hfound := startRun_found db0 rcfg.mode rcfg.execution_mode hwf
  have hsome :
      ((performReconciliation rcfg pcfg db0.nextRunId
        (Except.ok (compareAll nrm bs data))
        (logEvent (startRun db0 rcfg.mode rcfg.execution_mode).2 db0.nextRunId
          "run_started".toList "Reconciliation started".toList
          none)).2.runs.find? (fun r => r.run_id == db0.nextRunId)).isSome
        = true := by
    have h1 := congrArg Option.isSome
      (findProj_performReconciliation rcfg pcfg db0.nextRunId
        (Except.ok (compareAll nrm bs data))
        (logEvent (startRun db0 rcfg.mode rcfg.execution_mode).2 db0.nextRunId
          "run_started".toList "Reconciliation started".toList none)
        db0.nextRunId)
    rw [Option.isSome_map', Option.isSome_map'] at h1
    rw [h1]
    show ((startRun db0 rcfg.mode rcfg.execution_mode).2.runs.find?
      (fun r => r.run_id == db0.nextRunId)).isSome = true
    rw [hfound]
    rfl
  obtain ⟨hst, -, hse⟩ := completeRun_status_error
    (performReconciliation rcfg pcfg db0.nextRunId
      (Except.ok (compareAll nrm bs data))
      (logEvent (startRun db0 rcfg.mode rcfg.execution_mode).2 db0.nextRunId
        "run_started".toList "Reconciliation started".toList none)).2
    db0.nextRunId (compareAll nrm bs data).statistics none hsome
  refine ⟨by rw [hc], by rw [hc], by rw [hc], fun s => by rw [hc], by rw [hc],
    hst, ?_, ⟨_, rfl⟩⟩
  have hnone : (compareAll nrm bs data).statistics.isNone = true := by
    rw [hc]
    rfl
  rw [hnone] at hse
  exact hse

/-- Witness for the amended C8 theorem at a concrete input. -/
theorem c8_missing_a_witness :
    (c8Data Sys.A = none ∧ (∀ r ∈ emptyDB.runs, r.run_id < emptyDB.nextRunId))
      ∧ (compareAll defaultNormalizer 1000 c8Data).statistics = none :=
  ⟨⟨rfl, by simp [emptyDB]⟩,
    (c8_missing_a_empty_result_run_completes defaultNormalizer 1000 c8Data rfl
      ⟨"full".toList, "normal".toList⟩ defaultProvisionConfig emptyDB
      (by simp [emptyDB])).2.2.2.2.1⟩

end KeySync
